import Mathlib

/-!
Verification of the column-lineage engine of the `parser` repository.

The repository is a collection of Python scripts that build a column-level
lineage graph from per-statement `(source column, target column)` edges,
categorize tables by naming patterns, search the graph for multi-hop paths
from source columns to final target columns, propose heuristic bridge edges,
and score discovered mappings against expected ones.

This file gives a shallow embedding of the relevant functions.  Python
strings are Lean `String`s, but every string operation used by the code
(`lower()`, `in` substring test, `split('.')`, `'.'.join`, `<` comparison)
is re-implemented over the underlying character list so that all
definitions evaluate inside the kernel.  Python dictionaries (which are
insertion-ordered) are association lists with in-place update; Python sets
are modelled as insertion-ordered duplicate-free lists, which fixes one
deterministic enumeration order for each set.  Loops that Python runs
unboundedly are given an explicit fuel parameter together with theorems
showing a computable fuel bound after which the result is stable, which is
the termination statement for those loops.
-/

set_option maxRecDepth 4000

namespace LineageSpec

/-! ## Python-style string primitives over character lists -/

/-- Lower-case a single ASCII character, as Python `str.lower` does on the
ASCII table names appearing in this code base. -/
def lowChar (c : Char) : Char :=
  if 65 ≤ c.toNat ∧ c.toNat ≤ 90 then Char.ofNat (c.toNat + 32) else c

/-- Python `s.lower()`. -/
def lowerS (s : String) : String := ⟨s.data.map lowChar⟩

/-- Does the character list start with the given pattern? -/
def leadsWith : List Char → List Char → Bool
  | _, [] => true
  | [], _ :: _ => false
  | a :: l, b :: m => a = b && leadsWith l m

/-- Does the pattern occur as a contiguous substring of the character list? -/
def hasSub (pat : List Char) : List Char → Bool
  | [] => pat.isEmpty
  | a :: l => leadsWith (a :: l) pat || hasSub pat l

/-- Python `pat in s` substring test. -/
def strContains (s pat : String) : Bool := hasSub pat.data s.data

/-- Python `s.startswith(pat)`. -/
def strStarts (s pat : String) : Bool := leadsWith s.data pat.data

/-- Python `any(p in s for p in pats)`. -/
def matchesAny (s : String) (pats : List String) : Bool :=
  pats.any (fun p => strContains s p)

/-- Helper for `splitDot`: accumulates the current field. -/
def splitDotAux (cur : List Char) : List Char → List String
  | [] => [⟨cur⟩]
  | c :: rest =>
    if c = '.' then ⟨cur⟩ :: splitDotAux [] rest
    else splitDotAux (cur ++ [c]) rest

/-- Python `s.split('.')`. -/
def splitDot (s : String) : List String := splitDotAux [] s.data

/-- Python `'.'.join(parts)`. -/
def joinDot : List String → String
  | [] => ""
  | [s] => s
  | s :: rest => ⟨s.data ++ '.' :: (joinDot rest).data⟩

/-- Python `col.split('.')[-1]`, the unqualified column name. -/
def lastPart (col : String) : String := (splitDot col).getLastD ""

/-- Python `'.'.join(col.split('.')[:-1])`, the table part of a dotted
column name. -/
def tablePart (col : String) : String := joinDot (splitDot col).dropLast

/-! ## Python dictionaries as insertion-ordered association lists -/

/-- Python `d.get(k)` / `d[k]`. -/
def alGet (d : List (String × α)) (k : String) : Option α :=
  (d.find? (fun p => p.1 = k)).map (fun p => p.2)

/-- Python `d[k] = v`: replace in place if the key exists, else append. -/
def alSet (k : String) (v : α) : List (String × α) → List (String × α)
  | [] => [(k, v)]
  | (k', v') :: rest =>
    if k' = k then (k, v) :: rest else (k', v') :: alSet k v rest

/-- Python `defaultdict(list)`: `d[k].append(v)`. -/
def alAppendList (d : List (String × List α)) (k : String) (v : α) :
    List (String × List α) :=
  match alGet d k with
  | some l => alSet k (l ++ [v]) d
  | none => d ++ [(k, [v])]

/-- Python `defaultdict(set)`: `d[k].add(v)`, with the set kept as an
insertion-ordered duplicate-free list. -/
def alAddToSet [DecidableEq α] (d : List (String × List α)) (k : String)
    (v : α) : List (String × List α) :=
  match alGet d k with
  | some l => if v ∈ l then d else alSet k (l ++ [v]) d
  | none => d ++ [(k, [v])]

/-- Python `s.add(v)` on a plain set. -/
def addElem [DecidableEq α] (l : List α) (v : α) : List α :=
  if v ∈ l then l else l ++ [v]

/-! ## Table categorization

Four scripts classify table names by substring patterns.  Their pattern
lists and, crucially, the order in which the pattern groups are tested
differ between scripts. -/

namespace Ultimate

/-- Source patterns of `ultimate_lineage_parser.categorize_table`. -/
def source_patterns : List String := ["staging", "ref"]

/-- Intermediate patterns of `ultimate_lineage_parser.categorize_table`. -/
def intermediate_patterns : List String :=
  ["#", "temp", "work", "stage", "valid", "invalid", "fees", "post", "bal", "scores"]

/-- Target patterns of `ultimate_lineage_parser.categorize_table`. -/
def target_patterns : List String := ["core", "audit", "ops"]

/-- Embedding of `ultimate_lineage_parser.categorize_table` (src lines
18-29).  Note that this script tests the source patterns before the
intermediate patterns. -/
def categorize_table (table_name : String) : String :=
  let n := lowerS table_name
  if matchesAny n source_patterns then "source"
  else if matchesAny n intermediate_patterns then "intermediate"
  else if matchesAny n target_patterns then "target"
  else "other"

end Ultimate

namespace FinalParser

/-- Source patterns of `final_lineage_parser._categorize_table`. -/
def source_patterns : List String :=
  ["staging", "stage", "src", "source", "raw", "input", "import",
   "ext", "external", "ref", "reference", "lookup", "dim", "fact"]

/-- Target patterns of `final_lineage_parser._categorize_table`. -/
def target_patterns : List String :=
  ["core", "final", "output", "dest", "destination", "prod", "production",
   "audit", "log", "history", "archive", "summary", "agg", "aggregate"]

/-- Intermediate patterns of `final_lineage_parser._categorize_table`. -/
def intermediate_patterns : List String :=
  ["#", "temp", "tmp", "work", "staging", "buffer", "cache",
   "intermediate", "process", "transform", "enrich", "clean"]

/-- Embedding of `final_lineage_parser._categorize_table` (src lines
340-375): the intermediate patterns are checked first, then source, then
target. -/
def categorize_table (table_name : String) : String :=
  let n := lowerS table_name
  if matchesAny n intermediate_patterns then "intermediate"
  else if matchesAny n source_patterns then "source"
  else if matchesAny n target_patterns then "target"
  else "unknown"

end FinalParser

namespace Generic

/-- Embedding of `generic_sql_lineage_parser._categorize_table` (src lines
84-119), whose body is identical to the one in `final_lineage_parser`:
intermediate patterns first, then source, then target. -/
def categorize_table (table_name : String) : String :=
  let n := lowerS table_name
  if matchesAny n FinalParser.intermediate_patterns then "intermediate"
  else if matchesAny n FinalParser.source_patterns then "source"
  else if matchesAny n FinalParser.target_patterns then "target"
  else "unknown"

end Generic

namespace Enhanced

/-- Source patterns of `enhanced_lineage_parser._categorize_tables`. -/
def source_patterns : List String := ["staging", "ref", "source", "raw", "input"]

/-- Target patterns of `enhanced_lineage_parser._categorize_tables`. -/
def target_patterns : List String := ["core", "audit", "ops", "final", "output"]

/-- Intermediate patterns of `enhanced_lineage_parser._categorize_tables`. -/
def intermediate_patterns : List String := ["work", "temp", "#", "intermediate"]

/-- Embedding of the per-table pattern branch of
`enhanced_lineage_parser._categorize_tables` (src lines 119-132): source
patterns are tested first, then target, then intermediate; a table
matching nothing is added to no category, rendered here as the string
"unclassified". -/
def categorize_tables (table : String) : String :=
  let n := lowerS table
  if matchesAny n source_patterns then "source"
  else if matchesAny n target_patterns then "target"
  else if matchesAny n intermediate_patterns then "intermediate"
  else "unclassified"

end Enhanced

end LineageSpec

namespace LineageSpec

/-! ## Claim C2: order of pattern groups in table categorization -/

/-- Claim C2 counterexample: the name "staging_work" matches both an
intermediate pattern ("work", "stage") and a source pattern ("staging"),
yet `ultimate_lineage_parser.categorize_table` classifies it as "source",
because that script tests the source patterns first.  This refutes the
claim that every classifier tests intermediate patterns before source
patterns and classifies "staging_work" as Intermediate. -/
theorem ultimate_categorize_staging_work :
    matchesAny (lowerS "staging_work") Ultimate.intermediate_patterns = true ∧
    matchesAny (lowerS "staging_work") Ultimate.source_patterns = true ∧
    Ultimate.categorize_table "staging_work" = "source" ∧
    "source" ≠ "intermediate" := by
  refine ⟨by decide, by decide, by decide, by decide⟩

/-- Claim C2 (amended): in `final_lineage_parser._categorize_table` (and
the identical `generic_sql_lineage_parser._categorize_table`) the
intermediate patterns are tested before the source and target patterns,
so any name matching an intermediate pattern — such as "staging_work" —
is classified "intermediate"; but `ultimate_lineage_parser` and
`enhanced_lineage_parser` test source patterns first, so they classify
"staging_work" as "source". -/
theorem categorize_table_intermediate_first :
    (∀ name, matchesAny (lowerS name) FinalParser.intermediate_patterns = true →
      FinalParser.categorize_table name = "intermediate" ∧
      Generic.categorize_table name = "intermediate") ∧
    FinalParser.categorize_table "staging_work" = "intermediate" ∧
    Ultimate.categorize_table "staging_work" = "source" ∧
    Enhanced.categorize_tables "staging_work" = "source" := by
  refine ⟨?_, by decide, by decide, by decide⟩
  intro name h
  constructor
  · show (if matchesAny (lowerS name) FinalParser.intermediate_patterns then "intermediate"
      else if matchesAny (lowerS name) FinalParser.source_patterns then "source"
      else if matchesAny (lowerS name) FinalParser.target_patterns then "target"
      else "unknown") = "intermediate"
    rw [h]
    rfl
  · show (if matchesAny (lowerS name) FinalParser.intermediate_patterns then "intermediate"
      else if matchesAny (lowerS name) FinalParser.source_patterns then "source"
      else if matchesAny (lowerS name) FinalParser.target_patterns then "target"
      else "unknown") = "intermediate"
    rw [h]
    rfl

/-- Witness for `categorize_table_intermediate_first`: its universally
quantified part applied at the concrete name "staging_work". -/
theorem categorize_table_intermediate_first_witness :
    FinalParser.categorize_table "staging_work" = "intermediate" ∧
    Generic.categorize_table "staging_work" = "intermediate" :=
  categorize_table_intermediate_first.1 "staging_work" (by decide)

end LineageSpec

namespace LineageSpec

/-! ## Association-list lemmas used by the graph-merge proofs -/

/-- Python `d.get(k, [])`. -/
def alGetD (d : List (String × List α)) (k : String) : List α :=
  (alGet d k).getD []

theorem alGet_nil (k : String) : alGet ([] : List (String × α)) k = none := rfl

theorem alGet_cons (p : String × α) (rest : List (String × α)) (k : String) :
    alGet (p :: rest) k = if p.1 = k then some p.2 else alGet rest k := by
  by_cases h : p.1 = k <;> simp [alGet, List.find?, h]

theorem alGet_append (d₁ d₂ : List (String × α)) (k : String) :
    alGet (d₁ ++ d₂) k =
      match alGet d₁ k with
      | some v => some v
      | none => alGet d₂ k := by
  induction d₁ with
  | nil => simp [alGet_nil]
  | cons p rest ih =>
    by_cases h : p.1 = k <;> simp [alGet_cons, h, ih]

theorem alGet_alSet_self (d : List (String × α)) (k : String) (v : α) :
    alGet (alSet k v d) k = some v := by
  induction d with
  | nil => simp [alSet, alGet_cons]
  | cons p rest ih =>
    by_cases h : p.1 = k
    · simp [alSet, h, alGet_cons]
    · simp [alSet, h, alGet_cons, ih]

theorem alGet_alSet_ne (d : List (String × α)) (k k' : String) (v : α)
    (h : k' ≠ k) : alGet (alSet k v d) k' = alGet d k' := by
  induction d with
  | nil => simp [alSet, alGet_cons, alGet_nil, fun hh => h.symm hh]
  | cons p rest ih =>
    by_cases hp : p.1 = k
    · subst hp
      simp [alSet, alGet_cons, fun hh => h.symm hh]
    · simp [alSet, hp, alGet_cons, ih]

theorem mem_alAddToSet_self [DecidableEq α] (d : List (String × List α)) (k : String)
    (v : α) : v ∈ alGetD (alAddToSet d k v) k := by
  unfold alAddToSet
  cases hg : alGet d k with
  | none =>
    simp [alGetD, alGet_append, hg, alGet_cons]
  | some l =>
    by_cases hv : v ∈ l
    · simp [alGetD, hg, hv]
    · simp [hv, alGetD, alGet_alSet_self]

theorem mem_alAddToSet_mono [DecidableEq α] (d : List (String × List α)) (k k' : String)
    (v x : α) (h : x ∈ alGetD d k') : x ∈ alGetD (alAddToSet d k v) k' := by
  unfold alAddToSet
  cases hg : alGet d k with
  | none =>
    by_cases hk : k' = k
    · subst hk
      simp [alGetD, hg] at h
    · cases hg' : alGet d k' with
      | none => simp [alGetD, hg'] at h
      | some l' => simpa [alGetD, alGet_append, hg, hg', alGet_cons, hk] using h
  | some l =>
    by_cases hv : v ∈ l
    · simp [hv]
      exact h
    · simp only [if_neg hv]
      by_cases hk : k' = k
      · subst hk
        simp only [alGetD] at h
        rw [hg] at h
        simp only [alGetD, alGet_alSet_self]
        exact List.mem_append_left _ h
      · simpa [alGetD, alGet_alSet_ne _ _ _ _ hk] using h

theorem alAddToSet_of_mem [DecidableEq α] (d : List (String × List α)) (k : String)
    (v : α) (h : v ∈ alGetD d k) : alAddToSet d k v = d := by
  unfold alAddToSet
  cases hg : alGet d k with
  | none => simp [alGetD, hg] at h
  | some l =>
    have hv : v ∈ l := by simpa [alGetD, hg] using h
    simp [hv]

theorem mem_addElem_self [DecidableEq α] (l : List α) (v : α) : v ∈ addElem l v := by
  unfold addElem
  by_cases h : v ∈ l <;> simp [h]

theorem mem_addElem_mono [DecidableEq α] (l : List α) (v x : α) (h : x ∈ l) :
    x ∈ addElem l v := by
  unfold addElem
  by_cases hv : v ∈ l <;> simp [hv, h]

theorem addElem_of_mem [DecidableEq α] (l : List α) (v : α) (h : v ∈ l) :
    addElem l v = l := by
  simp [addElem, h]

end LineageSpec

namespace LineageSpec

/-! ## end_to_end_lineage_tracer: graph built from lists with append -/

namespace Tracer

/-- Forward and reverse adjacency of `EndToEndLineageTracer`, both Python
`defaultdict(list)` (source lines 43-44).  The companion
`column_metadata` dictionary carries display metadata only and is not part
of the adjacency. -/
structure Graphs where
  lineage_graph : List (String × List String)
  reverse_graph : List (String × List String)
deriving DecidableEq, Repr

/-- One edge insertion of `build_lineage_graph` (src lines 65-66 and
88-89): `self.lineage_graph[source].append(target)` and
`self.reverse_graph[target].append(source)`. -/
def add_lineage (st : Graphs) (e : String × String) : Graphs :=
  ⟨alAppendList st.lineage_graph e.1 e.2, alAppendList st.reverse_graph e.2 e.1⟩

/-- Embedding of `end_to_end_lineage_tracer.build_lineage_graph` (src
lines 55-109) restricted to its effect on the two adjacency dictionaries:
it appends every `(source, target)` pair of the batch in order. -/
def build_lineage_graph (st : Graphs) (batch : List (String × String)) : Graphs :=
  batch.foldl add_lineage st

end Tracer

/-! ## lineage_analyzer: graph built from sets -/

namespace Analyzer

/-- State of `LineageAnalyzer`: forward and reverse adjacency as Python
`defaultdict(set)` plus the set of all columns (source lines 38-40). -/
structure Graphs where
  forward_graph : List (String × List String)
  reverse_graph : List (String × List String)
  all_columns : List String
deriving DecidableEq, Repr

/-- One edge insertion of `_build_lineage_graph` (src lines 68-75):
`forward_graph[source].add(target)`, `reverse_graph[target].add(source)`,
`all_columns.add(source)`, `all_columns.add(target)`. -/
def add_lineage (st : Graphs) (e : String × String) : Graphs :=
  ⟨alAddToSet st.forward_graph e.1 e.2,
   alAddToSet st.reverse_graph e.2 e.1,
   addElem (addElem st.all_columns e.1) e.2⟩

/-- Embedding of `lineage_analyzer._build_lineage_graph` (src lines
49-75) applied to a batch of `(source, target)` edges collected from the
metadata. -/
def build_lineage_graph (st : Graphs) (batch : List (String × String)) : Graphs :=
  batch.foldl add_lineage st

/-- An edge is present in the analyzer state when its endpoints are in the
respective adjacency sets and in the column set. -/
def EdgeIn (st : Graphs) (e : String × String) : Prop :=
  e.2 ∈ alGetD st.forward_graph e.1 ∧
  e.1 ∈ alGetD st.reverse_graph e.2 ∧
  e.1 ∈ st.all_columns ∧ e.2 ∈ st.all_columns

theorem add_lineage_of_edgeIn (st : Graphs) (e : String × String)
    (h : EdgeIn st e) : add_lineage st e = st := by
  obtain ⟨h1, h2, h3, h4⟩ := h
  unfold add_lineage
  rw [alAddToSet_of_mem _ _ _ h1, alAddToSet_of_mem _ _ _ h2,
    addElem_of_mem _ _ h3, addElem_of_mem _ _ h4]

theorem edgeIn_add_lineage_mono (st : Graphs) (e e' : String × String)
    (h : EdgeIn st e) : EdgeIn (add_lineage st e') e := by
  obtain ⟨h1, h2, h3, h4⟩ := h
  exact ⟨mem_alAddToSet_mono _ _ _ _ _ h1, mem_alAddToSet_mono _ _ _ _ _ h2,
    mem_addElem_mono _ _ _ (mem_addElem_mono _ _ _ h3),
    mem_addElem_mono _ _ _ (mem_addElem_mono _ _ _ h4)⟩

theorem edgeIn_add_lineage_self (st : Graphs) (e : String × String) :
    EdgeIn (add_lineage st e) e := by
  refine ⟨mem_alAddToSet_self _ _ _, ?_, ?_, ?_⟩
  · exact mem_alAddToSet_self _ _ _
  · exact mem_addElem_mono _ _ _ (mem_addElem_self _ _)
  · exact mem_addElem_self _ _

theorem edgeIn_build_mono (st : Graphs) (batch : List (String × String))
    (e : String × String) (h : EdgeIn st e) :
    EdgeIn (build_lineage_graph st batch) e := by
  induction batch generalizing st with
  | nil => exact h
  | cons b rest ih => exact ih _ (edgeIn_add_lineage_mono _ _ _ h)

theorem edgeIn_build_of_mem (st : Graphs) (batch : List (String × String))
    (e : String × String) (h : e ∈ batch) :
    EdgeIn (build_lineage_graph st batch) e := by
  induction batch generalizing st with
  | nil => cases h
  | cons b rest ih =>
    rcases List.mem_cons.mp h with rfl | hmem
    · show EdgeIn (build_lineage_graph (add_lineage st e) rest) e
      exact edgeIn_build_mono _ _ _ (edgeIn_add_lineage_self _ _)
    · exact ih _ hmem

theorem build_of_all_edgeIn (st : Graphs) (batch : List (String × String))
    (h : ∀ e ∈ batch, EdgeIn st e) : build_lineage_graph st batch = st := by
  induction batch with
  | nil => rfl
  | cons b rest ih =>
    show build_lineage_graph (add_lineage st b) rest = st
    rw [add_lineage_of_edgeIn _ _ (h b (by simp))]
    exact ih (fun e he => h e (by simp [he]))

end Analyzer

/-! ## Claim C3: idempotence of edge-batch merging -/

/-- Claim C3 counterexample: in `end_to_end_lineage_tracer.build_lineage_graph`
the adjacency values are Python lists filled with `append`, so merging the
same one-edge batch twice yields an adjacency with the edge recorded twice
(weight 2), not the same state as merging it once.  This refutes the claim
that edge-batch merging is idempotent for every cited graph builder. -/
theorem tracer_build_lineage_graph_not_idempotent :
    Tracer.build_lineage_graph
        (Tracer.build_lineage_graph ⟨[], []⟩
          [("staging.transactions.srcid", "core.ledgerfinal.idempotencykey")])
        [("staging.transactions.srcid", "core.ledgerfinal.idempotencykey")] ≠
      Tracer.build_lineage_graph ⟨[], []⟩
        [("staging.transactions.srcid", "core.ledgerfinal.idempotencykey")] := by
  decide

/-- Claim C3 (amended): merging an edge batch into the set-based graphs of
`lineage_analyzer._build_lineage_graph` is idempotent — for every starting
state and every batch, adding the batch a second time leaves the forward
adjacency, the reverse adjacency and the column set unchanged.  The
list-based builder of `end_to_end_lineage_tracer` does not have this
property: re-adding a batch duplicates the multiplicity of its edges,
although it introduces no new neighbours. -/
theorem analyzer_build_lineage_graph_idempotent
    (st : Analyzer.Graphs) (batch : List (String × String)) :
    Analyzer.build_lineage_graph (Analyzer.build_lineage_graph st batch) batch =
      Analyzer.build_lineage_graph st batch :=
  Analyzer.build_of_all_edgeIn _ _
    (fun e he => Analyzer.edgeIn_build_of_mem st batch e he)

end LineageSpec

namespace LineageSpec

/-- Sum of a constant-valued map. -/
theorem sum_map_eq_length_mul {α : Type} (f : α → Nat) (X : Nat) :
    ∀ (l : List α), (∀ e ∈ l, f e = X) → (l.map f).sum = l.length * X := by
  intro l
  induction l with
  | nil => simp
  | cons a l ih =>
    intro h
    have ha := h a (by simp)
    have hrest := ih (fun e he => h e (by simp [he]))
    simp only [List.map_cons, List.sum_cons, ha, hrest, List.length_cons]
    ring

namespace Analyzer

/-! ## lineage_analyzer.find_paths: breadth-first enumeration of all
simple paths -/

/-- Adjacency lookup: `self.forward_graph[current]`, guarded in the source
by `if current in self.forward_graph`, which is the same as defaulting to
the empty list. -/
def adj (g : List (String × List String)) (c : String) : List String :=
  alGetD g c

/-- Loop body of `find_paths` over one neighbour `n` (src lines 159-168):
skip columns already on the path, record the extended path when the
target is reached, otherwise enqueue it. -/
def find_paths_step (t : String) (path : List String)
    (acc : List (String × List String) × List (List String)) (n : String) :
    List (String × List String) × List (List String) :=
  if n ∈ path then acc
  else if n = t then (acc.1, acc.2 ++ [path ++ [n]])
  else (acc.1 ++ [(n, path ++ [n])], acc.2)

/-- Fuelled embedding of the BFS loop of `lineage_analyzer.find_paths`
(src lines 149-170).  The queue holds `(current, path)` pairs; an entry
whose path exceeds `max_depth` is dropped (`continue`); otherwise all
neighbours are processed in order, extended paths reaching the target are
recorded, the others are appended to the queue.  `none` means the fuel
ran out before the queue emptied; `find_paths_fuel` below always
suffices. -/
def find_pathsAux (g : List (String × List String)) (t : String) (maxD : Nat) :
    Nat → List (String × List String) → List (List String) →
      Option (List (List String))
  | 0, _, _ => none
  | _ + 1, [], paths => some paths
  | fuel + 1, (cur, path) :: rest, paths =>
    if maxD < path.length then find_pathsAux g t maxD fuel rest paths
    else
      let step := (adj g cur).foldl (find_paths_step t path) ([], paths)
      find_pathsAux g t maxD fuel (rest ++ step.1) step.2

/-- Total length of all adjacency lists of the graph. -/
def totalAdj (g : List (String × List String)) : Nat :=
  (g.map (fun p => p.2.length)).sum

/-- Base of the geometric queue measure: strictly more than the number of
children any expansion can enqueue. -/
def branchBound (g : List (String × List String)) : Nat := totalAdj g + 2

/-- Weight of a queue entry carrying a path of length `l`. -/
def entryWeight (maxD B : Nat) (e : String × List String) : Nat :=
  B ^ (maxD + 2 - e.2.length)

/-- Geometric measure of the whole queue; it strictly decreases at every
loop iteration. -/
def queueMeasure (maxD B : Nat) (q : List (String × List String)) : Nat :=
  (q.map (entryWeight maxD B)).sum

/-- Fuel that always suffices for `find_pathsAux` started on `[(s, [s])]`. -/
def find_paths_fuel (g : List (String × List String)) (maxD : Nat) : Nat :=
  branchBound g ^ (maxD + 1) + 1

/-- Embedding of `lineage_analyzer.find_paths` (src lines 144-170),
including the early return `[[source]]` when source equals target. -/
def find_paths (g : List (String × List String)) (s t : String)
    (maxD : Nat) : List (List String) :=
  if s = t then [[s]]
  else (find_pathsAux g t maxD (find_paths_fuel g maxD) [(s, [s])] []).getD []

theorem adj_length_le (g : List (String × List String)) (c : String) :
    (adj g c).length ≤ totalAdj g := by
  induction g with
  | nil => simp [adj, alGetD, alGet_nil]
  | cons p rest ih =>
    by_cases h : p.1 = c
    · simp only [adj, alGetD, alGet_cons, if_pos h, Option.getD_some, totalAdj,
        List.map_cons, List.sum_cons]
      exact Nat.le_add_right _ _
    · simp only [adj, alGetD, alGet_cons, if_neg h] at ih ⊢
      refine le_trans ih ?_
      simp only [totalAdj, List.map_cons, List.sum_cons]
      omega

/-- Shape of one full neighbour sweep: the accumulated queue and result
lists only grow, the new queue entries come from eligible neighbours with
the path extended by one node, and the new result paths are the path
extended by the target. -/
theorem find_paths_foldl_shape (t : String) (path : List String) :
    ∀ (ns : List String) (acc : List (String × List String) × List (List String)),
      ∃ qNew pNew,
        ns.foldl (find_paths_step t path) acc = (acc.1 ++ qNew, acc.2 ++ pNew) ∧
        qNew.length ≤ ns.length ∧
        (∀ e ∈ qNew, ∃ n, n ∈ ns ∧ n ∉ path ∧ n ≠ t ∧ e = (n, path ++ [n])) ∧
        (∀ pp ∈ pNew, t ∈ ns ∧ t ∉ path ∧ pp = path ++ [t]) := by
  intro ns
  induction ns with
  | nil => exact fun acc => ⟨[], [], by simp, by simp, by simp, by simp⟩
  | cons n ns ih =>
    intro acc
    by_cases hp : n ∈ path
    · obtain ⟨qN, pN, heq, hlen, hq, hpp⟩ := ih acc
      refine ⟨qN, pN, ?_, Nat.le_succ_of_le hlen, ?_, ?_⟩
      · simpa [find_paths_step, hp] using heq
      · intro e he
        obtain ⟨m, hm, h1, h2, h3⟩ := hq e he
        exact ⟨m, by simp [hm], h1, h2, h3⟩
      · intro pp hpp'
        obtain ⟨h1, h2, h3⟩ := hpp pp hpp'
        exact ⟨by simp [h1], h2, h3⟩
    · by_cases ht : n = t
      · subst ht
        obtain ⟨qN, pN, heq, hlen, hq, hpp⟩ := ih (acc.1, acc.2 ++ [path ++ [n]])
        refine ⟨qN, (path ++ [n]) :: pN, ?_, Nat.le_succ_of_le hlen, ?_, ?_⟩
        · simpa [find_paths_step, hp, List.append_assoc] using heq
        · intro e he
          obtain ⟨m, hm, h1, h2, h3⟩ := hq e he
          exact ⟨m, by simp [hm], h1, h2, h3⟩
        · intro pp hpp'
          rcases List.mem_cons.mp hpp' with rfl | hmem
          · exact ⟨by simp, hp, rfl⟩
          · obtain ⟨h1, h2, h3⟩ := hpp pp hmem
            exact ⟨by simp [h1], h2, h3⟩
      · obtain ⟨qN, pN, heq, hlen, hq, hpp⟩ := ih (acc.1 ++ [(n, path ++ [n])], acc.2)
        refine ⟨(n, path ++ [n]) :: qN, pN, ?_, by simpa using hlen, ?_, ?_⟩
        · simpa [find_paths_step, hp, ht, List.append_assoc] using heq
        · intro e he
          rcases List.mem_cons.mp he with rfl | hmem
          · exact ⟨n, by simp, hp, ht, rfl⟩
          · obtain ⟨m, hm, h1, h2, h3⟩ := hq e hmem
            exact ⟨m, by simp [hm], h1, h2, h3⟩
        · intro pp hpp'
          obtain ⟨h1, h2, h3⟩ := hpp pp hpp'
          exact ⟨by simp [h1], h2, h3⟩

theorem queueMeasure_append (maxD B : Nat) (q₁ q₂ : List (String × List String)) :
    queueMeasure maxD B (q₁ ++ q₂) =
      queueMeasure maxD B q₁ + queueMeasure maxD B q₂ := by
  simp [queueMeasure]

theorem one_le_pow_branch (g : List (String × List String)) (e : Nat) :
    1 ≤ branchBound g ^ e :=
  Nat.one_le_pow _ _ (by simp only [branchBound]; omega)

/-- Fuel sufficiency: once the fuel exceeds the geometric queue measure,
the loop finishes. -/
theorem find_pathsAux_isSome (g : List (String × List String)) (t : String)
    (maxD : Nat) :
    ∀ (fuel : Nat) (q : List (String × List String)) (paths : List (List String)),
      queueMeasure maxD (branchBound g) q < fuel →
      (find_pathsAux g t maxD fuel q paths).isSome = true := by
  intro fuel
  induction fuel with
  | zero => intro q paths h; omega
  | succ fuel ih =>
    intro q paths h
    match q with
    | [] => simp [find_pathsAux]
    | (cur, path) :: rest =>
      have hcons : queueMeasure maxD (branchBound g) ((cur, path) :: rest) =
          branchBound g ^ (maxD + 2 - path.length) +
            queueMeasure maxD (branchBound g) rest := by
        simp [queueMeasure, entryWeight]
      by_cases hd : maxD < path.length
      · simp only [find_pathsAux, if_pos hd]
        apply ih
        have h1 : 1 ≤ branchBound g ^ (maxD + 2 - path.length) :=
          one_le_pow_branch g _
        omega
      · simp only [find_pathsAux, if_neg hd]
        obtain ⟨qN, pN, heq, hlen, hq, hpp⟩ :=
          find_paths_foldl_shape t path (adj g cur) ([], paths)
        rw [heq]
        simp only [List.nil_append]
        apply ih
        rw [queueMeasure_append]
        have hX1 : 1 ≤ branchBound g ^ (maxD + 1 - path.length) :=
          one_le_pow_branch g _
        have hw : ∀ e ∈ qN, entryWeight maxD (branchBound g) e =
            branchBound g ^ (maxD + 1 - path.length) := by
          intro e he
          obtain ⟨n, _, _, _, rfl⟩ := hq e he
          simp only [entryWeight, List.length_append, List.length_singleton]
          congr 1
          omega
        have hqn : queueMeasure maxD (branchBound g) qN =
            qN.length * branchBound g ^ (maxD + 1 - path.length) :=
          sum_map_eq_length_mul _ _ qN hw
        have hqlen : qN.length ≤ totalAdj g :=
          le_trans hlen (adj_length_le g cur)
        have hq2 : queueMeasure maxD (branchBound g) qN ≤
            totalAdj g * branchBound g ^ (maxD + 1 - path.length) := by
          rw [hqn]
          exact Nat.mul_le_mul_right _ hqlen
        have hexp : maxD + 2 - path.length = (maxD + 1 - path.length) + 1 := by
          omega
        have hpow : branchBound g ^ (maxD + 2 - path.length) =
            totalAdj g * branchBound g ^ (maxD + 1 - path.length) +
              2 * branchBound g ^ (maxD + 1 - path.length) := by
          rw [hexp, pow_succ]
          show branchBound g ^ (maxD + 1 - path.length) * (totalAdj g + 2) = _
          ring
        rw [hcons, hpow] at h
        omega

/-- Fuel monotonicity: a finished run is unaffected by extra fuel. -/
theorem find_pathsAux_mono (g : List (String × List String)) (t : String)
    (maxD : Nat) :
    ∀ (fuel fuel' : Nat) (q : List (String × List String))
      (paths out : List (List String)),
      find_pathsAux g t maxD fuel q paths = some out → fuel ≤ fuel' →
      find_pathsAux g t maxD fuel' q paths = some out := by
  intro fuel
  induction fuel with
  | zero => intro fuel' q paths out h; exact absurd h (by simp [find_pathsAux])
  | succ fuel ih =>
    intro fuel' q paths out h hle
    cases fuel' with
    | zero => exact absurd hle (by omega)
    | succ fuel2 =>
      have hle' : fuel ≤ fuel2 := by omega
      match q with
      | [] => simpa [find_pathsAux] using h
      | (cur, path) :: rest =>
        by_cases hd : maxD < path.length
        · simp only [find_pathsAux, if_pos hd] at h ⊢
          exact ih _ _ _ _ h hle'
        · simp only [find_pathsAux, if_neg hd] at h ⊢
          exact ih _ _ _ _ h hle'

end Analyzer

end LineageSpec

namespace LineageSpec

/-! ## List helper lemmas for path reasoning -/

theorem getLastD_concat {α : Type} (l : List α) (a d : α) :
    (l ++ [a]).getLastD d = a := by
  induction l with
  | nil => rfl
  | cons b l ih =>
    cases l with
    | nil => rfl
    | cons c l' => simpa using ih

theorem getLastD_cons_of_ne_nil {α : Type} (l : List α) (a d : α) (h : l ≠ []) :
    (a :: l).getLastD d = l.getLastD d := by
  cases l with
  | nil => exact absurd rfl h
  | cons b l' => rfl

theorem getLastD_mem_of_ne_nil {α : Type} (l : List α) (d : α) (h : l ≠ []) :
    l.getLastD d ∈ l := by
  induction l with
  | nil => exact absurd rfl h
  | cons a l ih =>
    cases l with
    | nil => simp [List.getLastD]
    | cons b l' =>
      rw [getLastD_cons_of_ne_nil _ _ _ (by simp)]
      exact List.mem_cons_of_mem _ (ih (by simp))

theorem getLastD_append_cons {α : Type} (l l' : List α) (a d : α) :
    (l ++ a :: l').getLastD d = (a :: l').getLastD d := by
  induction l with
  | nil => rfl
  | cons b m ih =>
    rw [List.cons_append, getLastD_cons_of_ne_nil _ _ _ (by simp)]
    exact ih

theorem head?_append_left {α : Type} (l l' : List α) (h : l ≠ []) :
    (l ++ l').head? = l.head? := by
  cases l with
  | nil => exact absurd rfl h
  | cons a m => rfl

theorem nodup_concat_of {α : Type} (l : List α) (a : α) (h1 : l.Nodup)
    (h2 : a ∉ l) : (l ++ [a]).Nodup := by
  induction l with
  | nil => simp
  | cons b m ih =>
    simp only [List.nodup_cons] at h1
    simp only [List.mem_cons] at h2
    push_neg at h2
    simp only [List.cons_append, List.nodup_cons, List.mem_append,
      List.mem_singleton]
    exact ⟨by tauto, ih h1.2 h2.2⟩

theorem not_mem_of_nodup_append_cons {α : Type} (l l' : List α) (a : α)
    (h : (l ++ a :: l').Nodup) : a ∉ l := by
  have hd := List.disjoint_of_nodup_append h
  intro hmem
  exact hd hmem (by simp)

namespace Analyzer

/-! ## Path predicates for the BFS invariants -/

/-- Boolean chain test: consecutive nodes of the list are connected by a
forward edge of the graph. -/
def chainB (g : List (String × List String)) : List String → Bool
  | [] => true
  | [_] => true
  | a :: b :: l => decide (b ∈ adj g a) && chainB g (b :: l)

theorem chainB_cons_cons (g : List (String × List String)) (a b : String)
    (l : List String) :
    chainB g (a :: b :: l) = (decide (b ∈ adj g a) && chainB g (b :: l)) := rfl

theorem chainB_snoc (g : List (String × List String)) (p : List String)
    (n : String) (hne : p ≠ []) (hc : chainB g p = true)
    (ha : n ∈ adj g (p.getLastD "")) : chainB g (p ++ [n]) = true := by
  induction p with
  | nil => exact absurd rfl hne
  | cons a p' ih =>
    cases p' with
    | nil =>
      have ha' : n ∈ adj g a := ha
      simp [chainB, ha']
    | cons b l =>
      rw [chainB_cons_cons] at hc
      simp only [Bool.and_eq_true] at hc
      rw [getLastD_cons_of_ne_nil _ _ _ (by simp)] at ha
      have h2 : chainB g (b :: l ++ [n]) = true := ih (by simp) hc.2 ha
      show chainB g (a :: b :: (l ++ [n])) = true
      rw [chainB_cons_cons]
      simp only [Bool.and_eq_true]
      exact ⟨hc.1, h2⟩

theorem chainB_append_cons_adj (g : List (String × List String))
    (p₁ p₂ : List String) (n : String) (hne : p₁ ≠ [])
    (hc : chainB g (p₁ ++ n :: p₂) = true) : n ∈ adj g (p₁.getLastD "") := by
  induction p₁ with
  | nil => exact absurd rfl hne
  | cons a l ih =>
    cases l with
    | nil =>
      simp only [List.cons_append, List.nil_append, chainB_cons_cons,
        Bool.and_eq_true, decide_eq_true_eq] at hc
      simpa [List.getLastD] using hc.1
    | cons b m =>
      have hc' : chainB g (a :: b :: (m ++ n :: p₂)) = true := hc
      rw [chainB_cons_cons] at hc'
      simp only [Bool.and_eq_true] at hc'
      rw [getLastD_cons_of_ne_nil _ _ _ (by simp)]
      exact ih (by simp) hc'.2

/-- Invariant of a queue entry `(current, path)`: the carried path starts
at the source, ends at the carried node, follows forward edges, repeats no
column, and avoids the target. -/
def QItemOk (g : List (String × List String)) (s t : String)
    (e : String × List String) : Prop :=
  e.2.head? = some s ∧ e.2.getLastD "" = e.1 ∧ chainB g e.2 = true ∧
    e.2.Nodup ∧ t ∉ e.2

/-- Invariant of an output path: a duplicate-free forward chain from the
source to the target of bounded length. -/
def OutOk (g : List (String × List String)) (s t : String) (maxD : Nat)
    (p : List String) : Prop :=
  p.head? = some s ∧ p.getLastD "" = t ∧ chainB g p = true ∧ p.Nodup ∧
    p.length ≤ maxD + 1

theorem head?_ne_nil {α : Type} (l : List α) (a : α) (h : l.head? = some a) :
    l ≠ [] := by
  cases l with
  | nil => cases h
  | cons b m => simp

/-- Soundness of the BFS loop: if every queue entry and every collected
path satisfies its invariant, every path of the final result satisfies the
output invariant. -/
theorem find_pathsAux_sound (g : List (String × List String)) (s t : String)
    (maxD : Nat) :
    ∀ (fuel : Nat) (q : List (String × List String))
      (paths out : List (List String)),
      (∀ e ∈ q, QItemOk g s t e) → (∀ p ∈ paths, OutOk g s t maxD p) →
      find_pathsAux g t maxD fuel q paths = some out →
      ∀ p ∈ out, OutOk g s t maxD p := by
  intro fuel
  induction fuel with
  | zero => intro q paths out _ _ h; exact absurd h (by simp [find_pathsAux])
  | succ fuel ih =>
    intro q paths out hq hp h
    match q with
    | [] =>
      simp only [find_pathsAux, Option.some.injEq] at h
      exact h ▸ hp
    | (cur, path) :: rest =>
      have hhead : QItemOk g s t (cur, path) := hq _ (by simp)
      obtain ⟨hh1, hh2, hh3, hh4, hh5⟩ := hhead
      have hpne : path ≠ [] := head?_ne_nil _ _ hh1
      by_cases hd : maxD < path.length
      · simp only [find_pathsAux, if_pos hd] at h
        exact ih _ _ _ (fun e he => hq e (by simp [he])) hp h
      · simp only [find_pathsAux, if_neg hd] at h
        obtain ⟨qN, pN, heq, hlen, hqn, hpn⟩ :=
          find_paths_foldl_shape t path (adj g cur) ([], paths)
        rw [heq] at h
        simp only [List.nil_append] at h
        refine ih _ _ _ ?_ ?_ h
        · intro e he
          rcases List.mem_append.mp he with hmem | hmem
          · exact hq e (by simp [hmem])
          · obtain ⟨n, hn, hnp, hnt, rfl⟩ := hqn e hmem
            refine ⟨by rwa [head?_append_left _ _ hpne], getLastD_concat _ _ _,
              ?_, nodup_concat_of _ _ hh4 hnp, ?_⟩
            · exact chainB_snoc g path n hpne hh3 (by rwa [hh2])
            · simp only [List.mem_append, List.mem_singleton]
              rintro (hmt | rfl)
              · exact hh5 hmt
              · exact hnt rfl
        · intro p hpmem
          rcases List.mem_append.mp hpmem with hmem | hmem
          · exact hp p hmem
          · obtain ⟨hn, hnp, rfl⟩ := hpn p hmem
            refine ⟨by rwa [head?_append_left _ _ hpne], getLastD_concat _ _ _,
              ?_, nodup_concat_of _ _ hh4 hnp, ?_⟩
            · exact chainB_snoc g path t hpne hh3 (by rwa [hh2])
            · simp only [List.length_append, List.length_singleton]
              omega

/-- Every path returned by `find_paths` is duplicate-free, runs from the
source to the target along forward edges, and respects the depth bound. -/
theorem find_paths_sound (g : List (String × List String)) (s t : String)
    (maxD : Nat) : ∀ p ∈ find_paths g s t maxD,
      p.Nodup ∧ p.length ≤ maxD + 1 ∧ p.head? = some s ∧
        p.getLastD "" = t ∧ chainB g p = true := by
  intro p hp
  by_cases hst : s = t
  · subst hst
    rw [find_paths, if_pos rfl, List.mem_singleton] at hp
    subst hp
    exact ⟨by simp, by simp only [List.length_singleton]; omega, rfl, rfl, rfl⟩
  · simp only [find_paths, if_neg hst] at hp
    have hsome := find_pathsAux_isSome g t maxD (find_paths_fuel g maxD)
      [(s, [s])] [] (by
        simp only [queueMeasure, entryWeight, List.map_cons, List.map_nil,
          List.sum_cons, List.sum_nil, List.length_singleton, find_paths_fuel]
        have hE : maxD + 2 - 1 = maxD + 1 := by omega
        rw [hE]
        omega)
    obtain ⟨out, hout⟩ := Option.isSome_iff_exists.mp hsome
    rw [hout] at hp
    simp only [Option.getD_some] at hp
    have := find_pathsAux_sound g s t maxD (find_paths_fuel g maxD)
      [(s, [s])] [] out ?_ (by simp) hout p hp
    · exact ⟨this.2.2.2.1, this.2.2.2.2, this.1, this.2.1, this.2.2.1⟩
    · intro e he
      simp only [List.mem_singleton] at he
      subst he
      exact ⟨rfl, rfl, rfl, by simp, by simpa using fun hh => hst hh.symm⟩

end Analyzer

end LineageSpec

namespace LineageSpec

namespace Analyzer

/-- Everything already accumulated survives a neighbour sweep. -/
theorem find_paths_foldl_acc_subset (t : String) (path : List String)
    (ns : List String) (acc : List (String × List String) × List (List String)) :
    (∀ e ∈ acc.1, e ∈ (ns.foldl (find_paths_step t path) acc).1) ∧
      (∀ p ∈ acc.2, p ∈ (ns.foldl (find_paths_step t path) acc).2) := by
  obtain ⟨qN, pN, heq, -, -, -⟩ := find_paths_foldl_shape t path ns acc
  rw [heq]
  exact ⟨fun e he => List.mem_append_left _ he,
    fun p hp => List.mem_append_left _ hp⟩

/-- A neighbour that is not on the path and is not the target is enqueued
with the extended path. -/
theorem find_paths_foldl_mem_queue (t : String) (path : List String) :
    ∀ (ns : List String) (acc : List (String × List String) × List (List String))
      (n : String), n ∈ ns → n ∉ path → n ≠ t →
      (n, path ++ [n]) ∈ (ns.foldl (find_paths_step t path) acc).1 := by
  intro ns
  induction ns with
  | nil => intro acc n h; cases h
  | cons m ns ih =>
    intro acc n hn hnp hnt
    rcases List.mem_cons.mp hn with rfl | hmem
    · have hstep : find_paths_step t path acc n =
          (acc.1 ++ [(n, path ++ [n])], acc.2) := by
        simp [find_paths_step, hnp, hnt]
      show (n, path ++ [n]) ∈ (ns.foldl (find_paths_step t path)
        (find_paths_step t path acc n)).1
      rw [hstep]
      exact (find_paths_foldl_acc_subset t path ns _).1 _ (by simp)
    · exact ih _ n hmem hnp hnt

/-- When the target is an eligible neighbour, the extended path is
recorded among the results. -/
theorem find_paths_foldl_mem_paths (t : String) (path : List String) :
    ∀ (ns : List String) (acc : List (String × List String) × List (List String)),
      t ∈ ns → t ∉ path →
      (path ++ [t]) ∈ (ns.foldl (find_paths_step t path) acc).2 := by
  intro ns
  induction ns with
  | nil => intro acc h; cases h
  | cons m ns ih =>
    intro acc hn hnp
    rcases List.mem_cons.mp hn with rfl | hmem
    · have hstep : find_paths_step t path acc t =
          (acc.1, acc.2 ++ [path ++ [t]]) := by
        simp [find_paths_step, hnp]
      show (path ++ [t]) ∈ (ns.foldl (find_paths_step t path)
        (find_paths_step t path acc t)).2
      rw [hstep]
      exact (find_paths_foldl_acc_subset t path ns _).2 _ (by simp)
    · exact ih _ hmem hnp

/-- Completeness of the BFS loop: a duplicate-free forward chain `P`
ending at the target and respecting the depth bound is found, provided
either it is already recorded or some nonempty proper prefix of it sits
in the queue. -/
theorem find_pathsAux_complete (g : List (String × List String)) (t : String)
    (maxD : Nat) :
    ∀ (fuel : Nat) (q : List (String × List String))
      (res out : List (List String)) (P : List String),
      find_pathsAux g t maxD fuel q res = some out →
      chainB g P = true → P.Nodup → P.getLastD "" = t → P.length ≤ maxD + 1 →
      (P ∈ res ∨ ∃ p₁ p₂, P = p₁ ++ p₂ ∧ p₁ ≠ [] ∧ p₂ ≠ [] ∧
        (p₁.getLastD "", p₁) ∈ q) →
      P ∈ out := by
  intro fuel
  induction fuel with
  | zero => intro q res out P h; exact absurd h (by simp [find_pathsAux])
  | succ fuel ih =>
    intro q res out P h hc hnd hlast hlen hw
    match q with
    | [] =>
      simp only [find_pathsAux, Option.some.injEq] at h
      rcases hw with hres | ⟨p₁, p₂, _, _, _, hmem⟩
      · exact h ▸ hres
      · cases hmem
    | (cur, path) :: rest =>
      by_cases hd : maxD < path.length
      · simp only [find_pathsAux, if_pos hd] at h
        refine ih _ _ _ _ h hc hnd hlast hlen ?_
        rcases hw with hres | ⟨p₁, p₂, hP, h1, h2, hmem⟩
        · exact Or.inl hres
        · rcases List.mem_cons.mp hmem with heq | hmem'
          · -- the dropped entry cannot be a witness: its path is too long
            have hp₁ : p₁ = path := congrArg Prod.snd heq
            subst hp₁
            have hsum : P.length = p₁.length + p₂.length := by simp [hP]
            have hp₂ : 1 ≤ p₂.length := by
              cases p₂ with
              | nil => exact absurd rfl h2
              | cons a l => simp
            omega
          · exact Or.inr ⟨p₁, p₂, hP, h1, h2, hmem'⟩
      · simp only [find_pathsAux, if_neg hd] at h
        refine ih _ _ _ _ h hc hnd hlast hlen ?_
        rcases hw with hres | ⟨p₁, p₂, hP, h1, h2, hmem⟩
        · exact Or.inl ((find_paths_foldl_acc_subset t path (adj g cur)
            ([], res)).2 _ hres)
        · rcases List.mem_cons.mp hmem with heq | hmem'
          · -- the popped entry is the witness prefix: advance it one node
            have hp₁ : p₁ = path := congrArg Prod.snd heq
            have hcur : p₁.getLastD "" = cur := congrArg Prod.fst heq
            subst hp₁
            cases p₂ with
            | nil => exact absurd rfl h2
            | cons n p₂' =>
              have hadj : n ∈ adj g cur := by
                rw [← hcur]
                exact chainB_append_cons_adj g p₁ p₂' n h1 (hP ▸ hc)
              have hnp : n ∉ p₁ :=
                not_mem_of_nodup_append_cons p₁ p₂' n (hP ▸ hnd)
              by_cases hnt : n = t
              · subst hnt
                have hp₂' : p₂' = [] := by
                  by_contra hne
                  have hmem2 : P.getLastD "" ∈ p₂' := by
                    rw [hP, getLastD_append_cons,
                      getLastD_cons_of_ne_nil _ _ _ hne]
                    exact getLastD_mem_of_ne_nil _ _ hne
                  rw [hlast] at hmem2
                  have hnd2 : (n :: p₂').Nodup :=
                    (hP ▸ hnd).of_append_right
                  rw [List.nodup_cons] at hnd2
                  exact hnd2.1 hmem2
                subst hp₂'
                refine Or.inl ?_
                rw [hP]
                exact find_paths_foldl_mem_paths n p₁ (adj g cur) ([], res)
                  hadj hnp
              · have hp₂' : p₂' ≠ [] := by
                  intro hcontra
                  subst hcontra
                  rw [hP, getLastD_concat] at hlast
                  exact hnt hlast
                refine Or.inr ⟨p₁ ++ [n], p₂', by simp [hP], by simp, hp₂', ?_⟩
                rw [getLastD_concat]
                refine List.mem_append_right _ ?_
                have hfold := find_paths_foldl_mem_queue t p₁ (adj g cur)
                  ([], res) n hadj hnp hnt
                simpa using hfold
          · exact Or.inr ⟨p₁, p₂, hP, h1, h2,
              List.mem_append_left _ hmem'⟩

/-- Claim C1 (amended): `lineage_analyzer.find_paths` is complete — it
returns every simple forward path from the source to the target whose
length respects the depth bound.  (The claim as stated additionally
asserts this of `trace_end_to_end_path`, which is refuted separately.) -/
theorem find_paths_returns_all_simple_paths (g : List (String × List String))
    (s t : String) (maxD : Nat) (P : List String)
    (h1 : P.head? = some s) (h2 : P.getLastD "" = t)
    (h3 : chainB g P = true) (h4 : P.Nodup) (h5 : P.length ≤ maxD + 1) :
    P ∈ find_paths g s t maxD := by
  obtain ⟨l, rfl⟩ : ∃ l, P = s :: l := by
    cases P with
    | nil => cases h1
    | cons a l =>
      have ha : a = s := by simpa using h1
      exact ⟨l, by rw [ha]⟩
  by_cases hst : s = t
  · subst hst
    rw [find_paths, if_pos rfl, List.mem_singleton]
    cases l with
    | nil => rfl
    | cons b m =>
      exfalso
      have hmem : (s :: b :: m).getLastD "" ∈ b :: m := by
        rw [getLastD_cons_of_ne_nil _ _ _ (by simp)]
        exact getLastD_mem_of_ne_nil _ _ (by simp)
      rw [h2] at hmem
      rw [List.nodup_cons] at h4
      exact h4.1 hmem
  · have hl : l ≠ [] := by
      intro hcontra
      subst hcontra
      exact hst h2
    rw [find_paths, if_neg hst]
    have hsome := find_pathsAux_isSome g t maxD (find_paths_fuel g maxD)
      [(s, [s])] [] (by
        simp only [queueMeasure, entryWeight, List.map_cons, List.map_nil,
          List.sum_cons, List.sum_nil, List.length_singleton, find_paths_fuel]
        have hE : maxD + 2 - 1 = maxD + 1 := by omega
        rw [hE]
        omega)
    obtain ⟨out, hout⟩ := Option.isSome_iff_exists.mp hsome
    rw [hout, Option.getD_some]
    exact find_pathsAux_complete g t maxD _ _ _ _ _ hout h3 h4 h2 h5
      (Or.inr ⟨[s], l, rfl, by simp, hl, by simp⟩)

end Analyzer

end LineageSpec

namespace LineageSpec

/-- Pointwise implication between filter predicates bounds the filtered
lengths. -/
theorem filter_length_mono {α : Type} {p q : α → Bool}
    (h : ∀ a, p a = true → q a = true) :
    ∀ L : List α, (L.filter p).length ≤ (L.filter q).length := by
  intro L
  induction L with
  | nil => simp
  | cons a L ih =>
    by_cases hp : p a = true
    · rw [List.filter_cons_of_pos hp, List.filter_cons_of_pos (h a hp)]
      simpa using ih
    · rw [List.filter_cons_of_neg (by simpa using hp)]
      by_cases hq : q a = true
      · rw [List.filter_cons_of_pos hq]
        exact le_trans ih (by simp)
      · rw [List.filter_cons_of_neg (by simpa using hq)]
        exact ih

namespace Tracer

/-! ## end_to_end_lineage_tracer.trace_end_to_end_path: single-path BFS -/

/-- Adjacency lookup `self.lineage_graph.get(current_column, [])`. -/
def adj (g : List (String × List String)) (c : String) : List String :=
  alGetD g c

/-- Neighbour sweep of the BFS (src lines 169-176): return the completed
path as soon as a neighbour equals the target; otherwise enqueue every
unvisited neighbour, marking it visited at once. -/
def expandBFS (t : String) (path : List String) (dep : Nat) :
    List String → List String →
      Option (List String) × List (String × List String × Nat) × List String
  | [], visited => (none, [], visited)
  | n :: ns, visited =>
    if n = t then (some (path ++ [n]), [], visited)
    else if n ∈ visited then expandBFS t path dep ns visited
    else
      let r := expandBFS t path dep ns (n :: visited)
      (r.1, (n, path ++ [n], dep + 1) :: r.2.1, r.2.2)

theorem expandBFS_cons (t : String) (path : List String) (dep : Nat)
    (n : String) (ns visited : List String) :
    expandBFS t path dep (n :: ns) visited =
      if n = t then (some (path ++ [n]), [], visited)
      else if n ∈ visited then expandBFS t path dep ns visited
      else
        let r := expandBFS t path dep ns (n :: visited)
        (r.1, (n, path ++ [n], dep + 1) :: r.2.1, r.2.2) := rfl

/-- Fuelled embedding of the BFS loop of
`end_to_end_lineage_tracer.trace_end_to_end_path` (src lines 158-178).
The queue holds `(current, path, depth)` triples; an entry at depth at
least `max_depth` is dropped (`continue`).  The outer `none` means the
fuel ran out; the inner option is the function's result. -/
def trace_end_to_end_pathAux (g : List (String × List String)) (t : String)
    (maxD : Nat) :
    Nat → List (String × List String × Nat) → List String →
      Option (Option (List String))
  | 0, _, _ => none
  | _ + 1, [], _ => some none
  | fuel + 1, (cur, path, dep) :: rest, visited =>
    if maxD ≤ dep then trace_end_to_end_pathAux g t maxD fuel rest visited
    else
      match expandBFS t path dep (adj g cur) visited with
      | (some res, _, _) => some (some res)
      | (none, items, vis) =>
        trace_end_to_end_pathAux g t maxD fuel (rest ++ items) vis

/-- All nodes occurring as a target of some edge; only these can ever be
newly enqueued. -/
def allTargets (g : List (String × List String)) : List String :=
  (g.map (fun p => p.2)).flatten

/-- Number of potential discoveries left. -/
def unvisitedCount (g : List (String × List String)) (visited : List String) :
    Nat :=
  ((allTargets g).filter (fun n => !decide (n ∈ visited))).length

/-- Each loop iteration either pops an entry or converts unvisited nodes
into queue entries, so this measure strictly decreases. -/
def bfsMeasure (g : List (String × List String))
    (q : List (String × List String × Nat)) (visited : List String) : Nat :=
  q.length + unvisitedCount g visited

/-- Fuel that always suffices for the BFS. -/
def trace_fuel (g : List (String × List String)) : Nat :=
  (allTargets g).length + 2

/-- Embedding of `end_to_end_lineage_tracer.trace_end_to_end_path` (src
lines 149-178): the immediate return when source equals target, then the
BFS from `[(source, [source], 0)]` with `{source}` visited. -/
def trace_end_to_end_path (g : List (String × List String)) (s t : String)
    (maxD : Nat) : Option (List String) :=
  if s = t then some [s]
  else
    (trace_end_to_end_pathAux g t maxD (trace_fuel g) [(s, [s], 0)] [s]).getD none

theorem adj_subset_allTargets (g : List (String × List String)) (c : String) :
    ∀ n ∈ adj g c, n ∈ allTargets g := by
  induction g with
  | nil => intro n hn; simp [adj, alGetD, alGet_nil] at hn
  | cons p rest ih =>
    intro n hn
    by_cases h : p.1 = c
    · simp only [adj, alGetD, alGet_cons, if_pos h, Option.getD_some] at hn
      simp only [allTargets, List.map_cons, List.flatten_cons]
      exact List.mem_append_left _ hn
    · simp only [adj, alGetD, alGet_cons, if_neg h] at hn
      have := ih n (by simpa [adj, alGetD] using hn)
      simp only [allTargets, List.map_cons, List.flatten_cons]
      exact List.mem_append_right _ (by simpa [allTargets] using this)

theorem unvisitedCount_cons_lt (g : List (String × List String))
    (visited : List String) (n : String) (hmem : n ∈ allTargets g)
    (hnv : n ∉ visited) :
    unvisitedCount g (n :: visited) + 1 ≤ unvisitedCount g visited := by
  obtain ⟨L₁, L₂, hL⟩ := List.append_of_mem hmem
  unfold unvisitedCount
  rw [hL, List.filter_append, List.filter_append]
  have hmono := filter_length_mono
    (p := fun x => !decide (x ∈ n :: visited)) (q := fun x => !decide (x ∈ visited))
    (by
      intro a ha
      simp only [Bool.not_eq_true', decide_eq_false_iff_not, List.mem_cons,
        not_or] at ha ⊢
      exact ha.2)
  have h1 := hmono L₁
  have h2 := hmono L₂
  rw [List.filter_cons_of_neg (by simp), List.filter_cons_of_pos (by simpa using hnv)]
  simp only [List.length_append, List.length_cons]
  omega

/-- Facts about a neighbour sweep that did not find the target. -/
theorem expandBFS_none (t : String) (path : List String) (dep : Nat) :
    ∀ (ns visited : List String) (items : List (String × List String × Nat))
      (vis : List String),
      expandBFS t path dep ns visited = (none, items, vis) →
      t ∉ ns ∧
      (∀ x, x ∈ vis ↔ x ∈ visited ∨ x ∈ items.map (fun e => e.1)) ∧
      (∀ e ∈ items, ∃ n, e = (n, path ++ [n], dep + 1) ∧ n ∈ ns ∧
        n ∉ visited ∧ n ≠ t) ∧
      (items.map (fun e => e.1)).Nodup ∧
      (∀ n ∈ ns, n ∈ vis) := by
  intro ns
  induction ns with
  | nil =>
    intro visited items vis h
    simp only [expandBFS, Prod.mk.injEq] at h
    obtain ⟨-, h2, h3⟩ := h
    subst h2
    subst h3
    exact ⟨by simp, by simp, by simp, by simp, by simp⟩
  | cons n ns ih =>
    intro visited items vis h
    rw [expandBFS_cons] at h
    by_cases hnt : n = t
    · rw [if_pos hnt] at h
      simp only [Prod.mk.injEq] at h
      cases h.1
    · rw [if_neg hnt] at h
      by_cases hnv : n ∈ visited
      · rw [if_pos hnv] at h
        obtain ⟨h1, h2, h3, h4, h5⟩ := ih visited items vis h
        refine ⟨?_, h2, ?_, h4, ?_⟩
        · simp only [List.mem_cons, not_or]
          exact ⟨fun hh => hnt hh.symm, h1⟩
        · intro e he
          obtain ⟨m, he1, he2, he3, he4⟩ := h3 e he
          exact ⟨m, he1, by simp [he2], he3, he4⟩
        · intro m hm
          rcases List.mem_cons.mp hm with rfl | hm'
          · exact ((h2 m).mpr (Or.inl hnv))
          · exact h5 m hm'
      · rw [if_neg hnv] at h
        rcases hr : expandBFS t path dep ns (n :: visited) with ⟨f, items', vis'⟩
        rw [hr] at h
        simp only [Prod.mk.injEq] at h
        obtain ⟨hf, hitems, hvis⟩ := h
        subst hf
        subst hvis
        obtain ⟨h1, h2, h3, h4, h5⟩ := ih (n :: visited) items' vis' hr
        subst hitems
        constructor
        · simp only [List.mem_cons, not_or]
          exact ⟨fun hh => hnt hh.symm, h1⟩
        constructor
        · intro x
          rw [h2 x]
          simp only [List.mem_cons, List.map_cons, List.mem_cons]
          tauto
        constructor
        · intro e he
          rcases List.mem_cons.mp he with rfl | he'
          · exact ⟨n, rfl, by simp, hnv, hnt⟩
          · obtain ⟨m, he1, he2, he3, he4⟩ := h3 e he'
            have hmv : m ∉ visited := fun hc => he3 (by simp [hc])
            exact ⟨m, he1, by simp [he2], hmv, he4⟩
        constructor
        · simp only [List.map_cons, List.nodup_cons]
          refine ⟨?_, h4⟩
          intro hc
          simp only [List.mem_map] at hc
          obtain ⟨e, he, hee⟩ := hc
          obtain ⟨m, he1, he2, he3, he4⟩ := h3 e he
          rw [he1] at hee
          simp only at hee
          subst hee
          exact he3 (by simp)
        · intro m hm
          rcases List.mem_cons.mp hm with rfl | hm'
          · exact (h2 m).mpr (Or.inl (by simp))
          · exact h5 m hm'

/-- A sweep that found the target returns the popped path extended by the
target, and the target really is a neighbour. -/
theorem expandBFS_some (t : String) (path : List String) (dep : Nat) :
    ∀ (ns visited : List String) (res : List String)
      (rst : List (String × List String × Nat)) (vis : List String),
      expandBFS t path dep ns visited = (some res, rst, vis) →
      res = path ++ [t] ∧ t ∈ ns := by
  intro ns
  induction ns with
  | nil => intro visited res rst vis h; simp [expandBFS] at h
  | cons n ns ih =>
    intro visited res rst vis h
    rw [expandBFS_cons] at h
    by_cases hnt : n = t
    · rw [if_pos hnt] at h
      simp only [Prod.mk.injEq, Option.some.injEq] at h
      subst hnt
      exact ⟨h.1.symm, by simp⟩
    · rw [if_neg hnt] at h
      by_cases hnv : n ∈ visited
      · rw [if_pos hnv] at h
        obtain ⟨h1, h2⟩ := ih _ _ _ _ h
        exact ⟨h1, by simp [h2]⟩
      · rw [if_neg hnv] at h
        rcases hr : expandBFS t path dep ns (n :: visited) with ⟨f, items', vis'⟩
        rw [hr] at h
        simp only [Prod.mk.injEq] at h
        obtain ⟨hf, -, -⟩ := h
        obtain ⟨h1, h2⟩ := ih _ _ _ _ (by rw [hr, ← hf])
        exact ⟨h1, by simp [h2]⟩

/-- Count bookkeeping of a target-free sweep: every enqueued item is paid
for by a newly visited node. -/
theorem expandBFS_measure (g : List (String × List String)) (t : String)
    (path : List String) (dep : Nat) :
    ∀ (ns visited : List String) (items : List (String × List String × Nat))
      (vis : List String),
      (∀ n ∈ ns, n ∈ allTargets g) →
      expandBFS t path dep ns visited = (none, items, vis) →
      items.length + unvisitedCount g vis ≤ unvisitedCount g visited := by
  intro ns
  induction ns with
  | nil =>
    intro visited items vis hsub h
    simp only [expandBFS, Prod.mk.injEq] at h
    obtain ⟨-, h2, h3⟩ := h
    subst h2
    subst h3
    simp
  | cons n ns ih =>
    intro visited items vis hsub h
    rw [expandBFS_cons] at h
    by_cases hnt : n = t
    · rw [if_pos hnt] at h
      simp only [Prod.mk.injEq] at h
      cases h.1
    · rw [if_neg hnt] at h
      by_cases hnv : n ∈ visited
      · rw [if_pos hnv] at h
        exact ih visited items vis (fun m hm => hsub m (by simp [hm])) h
      · rw [if_neg hnv] at h
        rcases hr : expandBFS t path dep ns (n :: visited) with ⟨f, items', vis'⟩
        rw [hr] at h
        simp only [Prod.mk.injEq] at h
        obtain ⟨hf, hitems, hvis⟩ := h
        subst hf
        subst hvis
        subst hitems
        have hih := ih (n :: visited) items' vis'
          (fun m hm => hsub m (by simp [hm])) hr
        have hlt := unvisitedCount_cons_lt g visited n
          (hsub n (by simp)) hnv
        simp only [List.length_cons]
        omega

end Tracer

end LineageSpec

namespace LineageSpec

namespace Tracer

/-- Fuel sufficiency for the single-path BFS. -/
theorem trace_aux_isSome (g : List (String × List String)) (t : String)
    (maxD : Nat) :
    ∀ (fuel : Nat) (q : List (String × List String × Nat))
      (visited : List String),
      bfsMeasure g q visited < fuel →
      (trace_end_to_end_pathAux g t maxD fuel q visited).isSome = true := by
  intro fuel
  induction fuel with
  | zero => intro q visited h; omega
  | succ fuel ih =>
    intro q visited h
    match q with
    | [] => simp [trace_end_to_end_pathAux]
    | (cur, path, dep) :: rest =>
      by_cases hd : maxD ≤ dep
      · simp only [trace_end_to_end_pathAux, if_pos hd]
        apply ih
        simp only [bfsMeasure, List.length_cons] at h ⊢
        omega
      · simp only [trace_end_to_end_pathAux, if_neg hd]
        rcases hE : expandBFS t path dep (adj g cur) visited with ⟨f, items, vis⟩
        cases f with
        | some res => rfl
        | none =>
          show (trace_end_to_end_pathAux g t maxD fuel (rest ++ items) vis).isSome = true
          apply ih
          have hmeas := expandBFS_measure g t path dep (adj g cur) visited
            items vis (adj_subset_allTargets g cur) hE
          simp only [bfsMeasure, List.length_append, List.length_cons] at h ⊢
          omega

/-- Fuel monotonicity for the single-path BFS. -/
theorem trace_aux_mono (g : List (String × List String)) (t : String)
    (maxD : Nat) :
    ∀ (fuel fuel' : Nat) (q : List (String × List String × Nat))
      (visited : List String) (out : Option (List String)),
      trace_end_to_end_pathAux g t maxD fuel q visited = some out →
      fuel ≤ fuel' →
      trace_end_to_end_pathAux g t maxD fuel' q visited = some out := by
  intro fuel
  induction fuel with
  | zero =>
    intro fuel' q visited out h
    exact absurd h (by simp [trace_end_to_end_pathAux])
  | succ fuel ih =>
    intro fuel' q visited out h hle
    cases fuel' with
    | zero => exact absurd hle (by omega)
    | succ fuel2 =>
      have hle' : fuel ≤ fuel2 := by omega
      match q with
      | [] => simpa [trace_end_to_end_pathAux] using h
      | (cur, path, dep) :: rest =>
        by_cases hd : maxD ≤ dep
        · simp only [trace_end_to_end_pathAux, if_pos hd] at h ⊢
          exact ih _ _ _ _ h hle'
        · simp only [trace_end_to_end_pathAux, if_neg hd] at h ⊢
          rcases hE : expandBFS t path dep (adj g cur) visited with ⟨f, items, vis⟩
          rw [hE] at h
          cases f with
          | some res => exact h
          | none =>
            have h' : trace_end_to_end_pathAux g t maxD fuel (rest ++ items) vis =
                some out := h
            show trace_end_to_end_pathAux g t maxD fuel2 (rest ++ items) vis = some out
            exact ih _ _ _ _ h' hle'

/-- Having popped into the pruning regime (every queued entry at depth at
least `max_depth`), the BFS can only drain the queue and report that no
path was found. -/
theorem trace_aux_pruned (g : List (String × List String)) (t : String)
    (maxD : Nat) :
    ∀ (fuel : Nat) (q : List (String × List String × Nat))
      (visited : List String) (p : List String),
      (∀ e ∈ q, maxD ≤ e.2.2) →
      trace_end_to_end_pathAux g t maxD fuel q visited ≠ some (some p) := by
  intro fuel
  induction fuel with
  | zero => intro q visited p _; simp [trace_end_to_end_pathAux]
  | succ fuel ih =>
    intro q visited p hdeps
    match q with
    | [] => simp [trace_end_to_end_pathAux]
    | (cur, path, dep) :: rest =>
      have hd : maxD ≤ dep := hdeps (cur, path, dep) (by simp)
      simp only [trace_end_to_end_pathAux, if_pos hd]
      exact ih rest visited p (fun e he => hdeps e (by simp [he]))

/-! ## Walks in the forward graph -/

/-- A walk of `k` edges in the forward adjacency. -/
inductive Walk (g : List (String × List String)) : String → String → Nat → Prop
  | nil (a : String) : Walk g a a 0
  | cons {a b c : String} {k : Nat} :
      b ∈ adj g a → Walk g b c k → Walk g a c (k + 1)

theorem walk_zero (g : List (String × List String)) (a b : String)
    (h : Walk g a b 0) : a = b := by
  cases h
  rfl

theorem walk_succ_inv (g : List (String × List String)) (a c : String)
    (k : Nat) (h : Walk g a c (k + 1)) :
    ∃ b, b ∈ adj g a ∧ Walk g b c k := by
  cases h with
  | cons hadj hw => exact ⟨_, hadj, hw⟩

/-- Last-step decomposition of a nonempty walk. -/
theorem walk_last (g : List (String × List String)) :
    ∀ (k : Nat) (a c : String), Walk g a c (k + 1) →
      ∃ u, Walk g a u k ∧ c ∈ adj g u := by
  intro k
  induction k with
  | zero =>
    intro a c h
    obtain ⟨b, hadj, hw⟩ := walk_succ_inv g a c 0 h
    have := walk_zero g b c hw
    subst this
    exact ⟨a, Walk.nil a, hadj⟩
  | succ k ih =>
    intro a c h
    obtain ⟨b, hadj, hw⟩ := walk_succ_inv g a c (k + 1) h
    obtain ⟨u, hu, hc⟩ := ih b c hw
    exact ⟨u, Walk.cons hadj hu, hc⟩

end Tracer

end LineageSpec

namespace LineageSpec

namespace Tracer

/-- Loop invariant of the single-path BFS.  Reading the conjuncts in
order: queued paths have length depth+1, never carry the target and are
discovered; depths along the queue are nondecreasing and span at most two
consecutive values; the target is undiscovered; a discovered node no
longer queued has been fully expanded; every node reachable in fewer
steps than the front depth is discovered; a queued node's depth is at
most the length of any walk reaching it; queued nodes are distinct; the
source is discovered. -/
def INV (g : List (String × List String)) (s t : String)
    (q : List (String × List String × Nat)) (visited : List String) : Prop :=
  (∀ e ∈ q, e.2.1.length = e.2.2 + 1 ∧ e.1 ≠ t ∧ e.1 ∈ visited) ∧
  List.Pairwise (fun x y => x.2.2 ≤ y.2.2 ∧ y.2.2 ≤ x.2.2 + 1) q ∧
  t ∉ visited ∧
  (∀ u ∈ visited, u ∉ q.map (fun e => e.1) →
    t ∉ adj g u ∧ ∀ w ∈ adj g u, w ∈ visited) ∧
  (∀ e rest, q = e :: rest → ∀ v k, Walk g s v k → k < e.2.2 → v ∈ visited) ∧
  (∀ e ∈ q, ∀ k, Walk g s e.1 k → e.2.2 ≤ k) ∧
  (q.map (fun e => e.1)).Nodup ∧
  s ∈ visited

/-- In front of an entry of depth `dep`, every node reachable in fewer
than `dep` steps has already been expanded. -/
theorem inv_expanded_of_walk_lt (g : List (String × List String)) (s t : String)
    (cur : String) (path : List String) (dep : Nat)
    (rest : List (String × List String × Nat)) (visited : List String)
    (hinv : INV g s t ((cur, path, dep) :: rest) visited)
    (u : String) (k : Nat) (hw : Walk g s u k) (hk : k < dep) :
    t ∉ adj g u ∧ ∀ w ∈ adj g u, w ∈ visited := by
  obtain ⟨hi, hii, hiii, hiv, hv, hvi, hvii, hviii⟩ := hinv
  have hu : u ∈ visited := hv _ _ rfl u k hw hk
  refine hiv u hu ?_
  intro hmem
  simp only [List.map_cons, List.mem_cons, List.mem_map] at hmem
  rcases hmem with rfl | ⟨e, he, rfl⟩
  · have h6 := hvi (u, path, dep) (by simp) k hw
    simp only at h6
    omega
  · have h1 : dep ≤ e.2.2 := ((List.pairwise_cons.mp hii).1 e he).1
    have h2 : e.2.2 ≤ k := hvi e (by simp [he]) k hw
    omega

/-- In front of an entry of depth `dep`, every node reachable in at most
`dep` steps has been discovered. -/
theorem inv_visited_of_walk_le (g : List (String × List String)) (s t : String)
    (cur : String) (path : List String) (dep : Nat)
    (rest : List (String × List String × Nat)) (visited : List String)
    (hinv : INV g s t ((cur, path, dep) :: rest) visited)
    (v : String) (k : Nat) (hw : Walk g s v k) (hk : k ≤ dep) :
    v ∈ visited := by
  cases k with
  | zero =>
    have := walk_zero g s v hw
    subst this
    exact hinv.2.2.2.2.2.2.2
  | succ k' =>
    obtain ⟨u, hu, hadj⟩ := walk_last g k' s v hw
    exact (inv_expanded_of_walk_lt g s t cur path dep rest visited hinv
      u k' hu (by omega)).2 v hadj

/-- The invariant survives one expansion step that did not meet the
target. -/
theorem inv_step (g : List (String × List String)) (s t : String)
    (cur : String) (path : List String) (dep : Nat)
    (rest : List (String × List String × Nat)) (visited : List String)
    (items : List (String × List String × Nat)) (vis : List String)
    (hinv : INV g s t ((cur, path, dep) :: rest) visited)
    (hE : expandBFS t path dep (adj g cur) visited = (none, items, vis)) :
    INV g s t (rest ++ items) vis := by
  obtain ⟨hn1, hn2, hn3, hn4, hn5⟩ := expandBFS_none t path dep _ _ _ _ hE
  obtain ⟨hi, hii, hiii, hiv, hv, hvi, hvii, hviii⟩ := hinv
  have hlen : path.length = dep + 1 := (hi (cur, path, dep) (by simp)).1
  have hvsub : ∀ x ∈ visited, x ∈ vis := fun x hx => (hn2 x).mpr (Or.inl hx)
  have hitem_node : ∀ e ∈ items, e.1 ∉ visited ∧ e.1 ≠ t ∧
      e.2.1.length = dep + 2 ∧ e.2.2 = dep + 1 ∧ e.1 ∈ adj g cur := by
    intro e he
    obtain ⟨n, rfl, hn, hnv, hnt⟩ := hn3 e he
    exact ⟨hnv, hnt, by simp [hlen], rfl, hn⟩
  have hhead_rel : ∀ y ∈ rest, dep ≤ y.2.2 ∧ y.2.2 ≤ dep + 1 :=
    fun y hy => (List.pairwise_cons.mp hii).1 y hy
  have hrest_nodes_vis : ∀ e ∈ rest, e.1 ∈ visited :=
    fun e he => (hi e (by simp [he])).2.2
  have hshort : ∀ v k, Walk g s v k → k ≤ dep → v ∈ visited := fun v k hw hk =>
    inv_visited_of_walk_le g s t cur path dep rest visited
      ⟨hi, hii, hiii, hiv, hv, hvi, hvii, hviii⟩ v k hw hk
  refine ⟨?_, ?_, ?_, ?_, ?_, ?_, ?_, hvsub s hviii⟩
  · intro e he
    rcases List.mem_append.mp he with hm | hm
    · obtain ⟨a, b, c⟩ := hi e (by simp [hm])
      exact ⟨a, b, hvsub _ c⟩
    · obtain ⟨hnv, hnt, hl, hd, -⟩ := hitem_node e hm
      refine ⟨by rw [hl, hd], hnt, ?_⟩
      exact (hn2 e.1).mpr (Or.inr (List.mem_map_of_mem _ hm))
  · rw [List.pairwise_append]
    refine ⟨(List.pairwise_cons.mp hii).2, ?_, ?_⟩
    · rw [List.pairwise_iff_forall_sublist]
      intro x y hsub
      have hx := hitem_node x (hsub.subset (by simp))
      have hy := hitem_node y (hsub.subset (by simp))
      rw [hx.2.2.2.1, hy.2.2.2.1]
      omega
    · intro x hx y hy
      have h1 := hhead_rel x hx
      have h2 := (hitem_node y hy).2.2.2.1
      rw [h2]
      omega
  · intro hc
    rcases (hn2 t).mp hc with hm | hm
    · exact hiii hm
    · simp only [List.mem_map] at hm
      obtain ⟨e, he, hee⟩ := hm
      exact (hitem_node e he).2.1 hee
  · intro u hu hnot
    simp only [List.map_append, List.mem_append, not_or] at hnot
    rcases (hn2 u).mp hu with hm | hm
    · by_cases hcur : u = cur
      · subst hcur
        exact ⟨hn1, hn5⟩
      · have : u ∉ List.map (fun e => e.1) ((cur, path, dep) :: rest) := by
          simp only [List.map_cons, List.mem_cons, not_or]
          exact ⟨hcur, hnot.1⟩
        obtain ⟨ha, hb⟩ := hiv u hm this
        exact ⟨ha, fun w hw => hvsub _ (hb w hw)⟩
    · exact absurd hm hnot.2
  · intro e rest' heq v k hw hk
    have he : e ∈ rest ++ items := by rw [heq]; simp
    have hdepe : e.2.2 ≤ dep + 1 := by
      rcases List.mem_append.mp he with hm | hm
      · exact (hhead_rel e hm).2
      · rw [(hitem_node e hm).2.2.2.1]
    exact hvsub _ (hshort v k hw (by omega))
  · intro e he k hw
    rcases List.mem_append.mp he with hm | hm
    · exact hvi e (by simp [hm]) k hw
    · obtain ⟨hnv, -, -, hd, -⟩ := hitem_node e hm
      rw [hd]
      by_contra hcon
      exact hnv (hshort e.1 k hw (by omega))
  · rw [List.map_append]
    rw [List.nodup_append]
    refine ⟨(by simpa using hvii : (List.map (fun e => e.1)
      ((cur, path, dep) :: rest)).Nodup).of_cons, hn4, ?_⟩
    intro x hx hy
    simp only [List.mem_map] at hx hy
    obtain ⟨e, he, rfl⟩ := hx
    obtain ⟨e', he', hee⟩ := hy
    exact (hitem_node e' he').1 (hee ▸ hrest_nodes_vis e he)

/-- Core of claim C10: under the invariant, any path the BFS returns is
at most as long as any walk from the source to the target. -/
theorem trace_aux_shortest (g : List (String × List String)) (s t : String)
    (maxD : Nat) :
    ∀ (fuel : Nat) (q : List (String × List String × Nat))
      (visited : List String) (p : List String),
      INV g s t q visited →
      trace_end_to_end_pathAux g t maxD fuel q visited = some (some p) →
      ∀ k, Walk g s t k → p.length ≤ k + 1 := by
  intro fuel
  induction fuel with
  | zero =>
    intro q visited p _ h
    exact absurd h (by simp [trace_end_to_end_pathAux])
  | succ fuel ih =>
    intro q visited p hinv h
    match q with
    | [] =>
      simp only [trace_end_to_end_pathAux, Option.some.injEq] at h
      cases h
    | (cur, path, dep) :: rest =>
      by_cases hd : maxD ≤ dep
      · simp only [trace_end_to_end_pathAux, if_pos hd] at h
        refine absurd h (trace_aux_pruned g t maxD fuel rest visited p ?_)
        intro e he
        have hrel := ((List.pairwise_cons.mp hinv.2.1).1 e he).1
        simp only at hrel
        omega
      · simp only [trace_end_to_end_pathAux, if_neg hd] at h
        rcases hE : expandBFS t path dep (adj g cur) visited with ⟨f, items, vis⟩
        rw [hE] at h
        cases f with
        | some res =>
          have hres : res = p := by
            simpa using h
          obtain ⟨hres_eq, htadj⟩ := expandBFS_some t path dep _ _ _ _ _ hE
          subst hres
          intro k hw
          have hlen : path.length = dep + 1 :=
            (hinv.1 (cur, path, dep) (by simp)).1
          rw [hres_eq]
          simp only [List.length_append, List.length_singleton, hlen]
          -- it suffices that no walk of at most dep steps reaches the target
          by_contra hcon
          push_neg at hcon
          have hk : k ≤ dep := by omega
          cases k with
          | zero =>
            have := walk_zero g s t hw
            exact hinv.2.2.1 (this ▸ hinv.2.2.2.2.2.2.2)
          | succ k' =>
            obtain ⟨u, hu, hadj⟩ := walk_last g k' s t hw
            exact (inv_expanded_of_walk_lt g s t cur path dep rest visited
              hinv u k' hu (by omega)).1 hadj
        | none =>
          have h' : trace_end_to_end_pathAux g t maxD fuel (rest ++ items) vis =
              some (some p) := h
          exact ih (rest ++ items) vis p
            (inv_step g s t cur path dep rest visited items vis hinv hE) h'

/-- Claim C10: whenever `trace_end_to_end_path` returns a path, that path
is a shortest path — every walk from the source to the target in the
lineage graph has at least as many edges as the returned path. -/
theorem trace_end_to_end_path_shortest (g : List (String × List String))
    (s t : String) (maxD : Nat) (p : List String)
    (h : trace_end_to_end_path g s t maxD = some p) :
    ∀ k, Walk g s t k → p.length ≤ k + 1 := by
  by_cases hst : s = t
  · rw [trace_end_to_end_path, if_pos hst, Option.some.injEq] at h
    subst h
    intro k _
    simp
  · rw [trace_end_to_end_path, if_neg hst] at h
    cases hout : trace_end_to_end_pathAux g t maxD (trace_fuel g) [(s, [s], 0)] [s] with
    | none => rw [hout] at h; simp at h
    | some o =>
      rw [hout] at h
      simp only [Option.getD_some] at h
      subst h
      refine trace_aux_shortest g s t maxD (trace_fuel g) [(s, [s], 0)] [s] p ?_ hout
      refine ⟨?_, ?_, ?_, ?_, ?_, ?_, ?_, ?_⟩
      · intro e he
        simp only [List.mem_singleton] at he
        subst he
        exact ⟨rfl, hst, by simp⟩
      · simp
      · simpa using fun hh => hst hh.symm
      · intro u hu hnot
        simp only [List.mem_singleton] at hu
        subst hu
        simp at hnot
      · intro e rest heq v k hw hk
        simp only [List.cons.injEq] at heq
        rw [← heq.1] at hk
        simp at hk
      · intro e he k hw
        simp only [List.mem_singleton] at he
        subst he
        simp
      · simp
      · simp

end Tracer

end LineageSpec

namespace LineageSpec

/-- Generic form of `unvisitedCount_cons_lt`: marking a listed, unmarked
element strictly shrinks the count of unmarked elements. -/
theorem filter_not_mem_cons_lt (L visited : List String) (n : String)
    (hmem : n ∈ L) (hnv : n ∉ visited) :
    (L.filter (fun x => !decide (x ∈ n :: visited))).length + 1 ≤
      (L.filter (fun x => !decide (x ∈ visited))).length := by
  obtain ⟨L₁, L₂, hL⟩ := List.append_of_mem hmem
  rw [hL, List.filter_append, List.filter_append]
  have hmono := filter_length_mono
    (p := fun x => !decide (x ∈ n :: visited)) (q := fun x => !decide (x ∈ visited))
    (by
      intro a ha
      simp only [Bool.not_eq_true', decide_eq_false_iff_not, List.mem_cons,
        not_or] at ha ⊢
      exact ha.2)
  have h1 := hmono L₁
  have h2 := hmono L₂
  rw [List.filter_cons_of_neg (by simp), List.filter_cons_of_pos (by simpa using hnv)]
  simp only [List.length_append, List.length_cons]
  omega

/-- Merge of two optional path lists, `none` propagating. -/
def optAppend (x y : Option (List (List String))) : Option (List (List String)) :=
  match x, y with
  | some l, some r => some (l ++ r)
  | _, _ => none

theorem foldr_optAppend_mem (f : String → Option (List (List String))) :
    ∀ (ns : List String) (out : List (List String)),
      ns.foldr (fun n acc => optAppend (f n) acc) (some []) = some out →
      ∀ p ∈ out, ∃ n ∈ ns, ∃ l, f n = some l ∧ p ∈ l := by
  intro ns
  induction ns with
  | nil =>
    intro out h p hp
    simp only [List.foldr_nil, Option.some.injEq] at h
    subst h
    cases hp
  | cons n ns ih =>
    intro out h p hp
    simp only [List.foldr_cons] at h
    cases hf : f n with
    | none => rw [hf] at h; simp [optAppend] at h
    | some l =>
      cases hrec : ns.foldr (fun n acc => optAppend (f n) acc) (some []) with
      | none => rw [hf, hrec] at h; simp [optAppend] at h
      | some r =>
        rw [hf, hrec] at h
        simp only [optAppend, Option.some.injEq] at h
        subst h
        rcases List.mem_append.mp hp with hm | hm
        · exact ⟨n, by simp, l, hf, hm⟩
        · obtain ⟨m, hmns, l', hfl, hpl⟩ := ih r hrec p hm
          exact ⟨m, by simp [hmns], l', hfl, hpl⟩

theorem foldr_optAppend_isSome (f : String → Option (List (List String))) :
    ∀ (ns : List String), (∀ n ∈ ns, (f n).isSome = true) →
      (ns.foldr (fun n acc => optAppend (f n) acc) (some [])).isSome = true := by
  intro ns
  induction ns with
  | nil => intro _; simp
  | cons n ns ih =>
    intro h
    simp only [List.foldr_cons]
    obtain ⟨l, hl⟩ := Option.isSome_iff_exists.mp (h n (by simp))
    obtain ⟨r, hr⟩ := Option.isSome_iff_exists.mp (ih (fun m hm => h m (by simp [hm])))
    rw [hl, hr]
    simp [optAppend]

theorem foldr_optAppend_congr (f f' : String → Option (List (List String))) :
    ∀ (ns : List String) (out : List (List String)),
      ns.foldr (fun n acc => optAppend (f n) acc) (some []) = some out →
      (∀ n ∈ ns, ∀ v, f n = some v → f' n = some v) →
      ns.foldr (fun n acc => optAppend (f' n) acc) (some []) = some out := by
  intro ns
  induction ns with
  | nil => intro out h _; exact h
  | cons n ns ih =>
    intro out h hcong
    simp only [List.foldr_cons] at h ⊢
    cases hf : f n with
    | none => rw [hf] at h; simp [optAppend] at h
    | some l =>
      cases hrec : ns.foldr (fun n acc => optAppend (f n) acc) (some []) with
      | none => rw [hf, hrec] at h; simp [optAppend] at h
      | some r =>
        rw [hf, hrec] at h
        rw [hcong n (by simp) l hf,
          ih r hrec (fun m hm v hv => hcong m (by simp [hm]) v hv)]
        exact h

namespace Hybrid

/-! ## hybrid_sql_lineage_parser.find_complete_paths_to_finals -/

/-- Fuelled embedding of the recursive
`find_complete_paths_to_finals` closure of
`hybrid_sql_lineage_parser._trace_end_to_end_lineage` (src lines
457-482).  A column already in the per-branch visited set yields no
paths; a column of a final target table completes the current path;
otherwise all successors are explored, each branch receiving its own copy
of the visited set extended by the current column. -/
def find_complete_paths_to_finalsAux (flows : List (String × List String))
    (c2t : List (String × String)) (finals : List String) :
    Nat → String → List String → List String → Option (List (List String))
  | 0, _, _, _ => none
  | fuel + 1, start_col, visited, path =>
    if start_col ∈ visited then some []
    else
      let current_path := path ++ [start_col]
      let isFinal : Bool :=
        match alGet c2t start_col with
        | some table => decide (table ∈ finals)
        | none => false
      if isFinal then some [current_path]
      else
        (alGetD flows start_col).foldr
          (fun n acc =>
            optAppend (find_complete_paths_to_finalsAux flows c2t finals fuel
              n (start_col :: visited) current_path) acc)
          (some [])

/-- Number of flow keys not yet visited; bounds the recursion depth. -/
def keysLeft (flows : List (String × List String)) (visited : List String) :
    Nat :=
  ((flows.map Prod.fst).filter (fun k => !decide (k ∈ visited))).length

theorem alGet_some_mem_keys {α : Type} (d : List (String × α)) (k : String)
    (v : α) (h : alGet d k = some v) : k ∈ d.map Prod.fst := by
  induction d with
  | nil => simp [alGet_nil] at h
  | cons p rest ih =>
    rw [alGet_cons] at h
    by_cases hp : p.1 = k
    · simp [hp]
    · rw [if_neg hp] at h
      simp [ih h]

theorem find_complete_paths_isSome (flows : List (String × List String))
    (c2t : List (String × String)) (finals : List String) :
    ∀ (fuel : Nat) (start : String) (visited path : List String),
      keysLeft flows visited < fuel →
      (find_complete_paths_to_finalsAux flows c2t finals fuel start visited
        path).isSome = true := by
  intro fuel
  induction fuel with
  | zero => intro start visited path h; omega
  | succ fuel ih =>
    intro start visited path h
    simp only [find_complete_paths_to_finalsAux]
    by_cases hv : start ∈ visited
    · simp [hv]
    · rw [if_neg hv]
      by_cases hf : (match alGet c2t start with
        | some table => decide (table ∈ finals)
        | none => false) = true
      · rw [if_pos hf]
        simp
      · rw [if_neg hf]
        cases hA : alGet flows start with
        | none =>
          simp [alGetD, hA]
        | some l =>
          apply foldr_optAppend_isSome
          intro n hn
          apply ih
          have hkey : start ∈ flows.map Prod.fst := alGet_some_mem_keys _ _ _ hA
          have := filter_not_mem_cons_lt (flows.map Prod.fst) visited start hkey hv
          unfold keysLeft at h ⊢
          omega

theorem find_complete_paths_mono (flows : List (String × List String))
    (c2t : List (String × String)) (finals : List String) :
    ∀ (fuel fuel' : Nat) (start : String) (visited path : List String)
      (out : List (List String)),
      find_complete_paths_to_finalsAux flows c2t finals fuel start visited
        path = some out → fuel ≤ fuel' →
      find_complete_paths_to_finalsAux flows c2t finals fuel' start visited
        path = some out := by
  intro fuel
  induction fuel with
  | zero =>
    intro fuel' start visited path out h
    exact absurd h (by simp [find_complete_paths_to_finalsAux])
  | succ fuel ih =>
    intro fuel' start visited path out h hle
    cases fuel' with
    | zero => exact absurd hle (by omega)
    | succ fuel2 =>
      have hle' : fuel ≤ fuel2 := by omega
      simp only [find_complete_paths_to_finalsAux] at h ⊢
      by_cases hv : start ∈ visited
      · rw [if_pos hv] at h ⊢; exact h
      · rw [if_neg hv] at h ⊢
        by_cases hf : (match alGet c2t start with
          | some table => decide (table ∈ finals)
          | none => false) = true
        · rw [if_pos hf] at h ⊢; exact h
        · rw [if_neg hf] at h ⊢
          exact foldr_optAppend_congr _ _ _ _ h
            (fun n _ v hv' => ih fuel2 n _ _ v hv' hle')

/-- Every path produced by the DFS is duplicate-free, provided the
accumulated path is duplicate-free and fully covered by the visited set —
which is exactly how the recursion maintains them. -/
theorem find_complete_paths_nodup (flows : List (String × List String))
    (c2t : List (String × String)) (finals : List String) :
    ∀ (fuel : Nat) (start : String) (visited path : List String)
      (out : List (List String)),
      path.Nodup → (∀ x ∈ path, x ∈ visited) →
      find_complete_paths_to_finalsAux flows c2t finals fuel start visited
        path = some out →
      ∀ p ∈ out, p.Nodup := by
  intro fuel
  induction fuel with
  | zero =>
    intro start visited path out _ _ h
    exact absurd h (by simp [find_complete_paths_to_finalsAux])
  | succ fuel ih =>
    intro start visited path out hnd hcov h p hp
    simp only [find_complete_paths_to_finalsAux] at h
    by_cases hv : start ∈ visited
    · rw [if_pos hv] at h
      simp only [Option.some.injEq] at h
      subst h
      cases hp
    · rw [if_neg hv] at h
      have hsp : start ∉ path := fun hc => hv (hcov _ hc)
      have hnd' : (path ++ [start]).Nodup := nodup_concat_of _ _ hnd hsp
      by_cases hf : (match alGet c2t start with
        | some table => decide (table ∈ finals)
        | none => false) = true
      · rw [if_pos hf] at h
        simp only [Option.some.injEq] at h
        subst h
        simp only [List.mem_singleton] at hp
        subst hp
        exact hnd'
      · rw [if_neg hf] at h
        obtain ⟨n, hn, l, hfl, hpl⟩ := foldr_optAppend_mem _ _ _ h p hp
        refine ih n (start :: visited) (path ++ [start]) l hnd' ?_ hfl p hpl
        intro x hx
        rcases List.mem_append.mp hx with hm | hm
        · exact List.mem_cons_of_mem _ (hcov _ hm)
        · simp only [List.mem_singleton] at hm
          simp [hm]

/-- Embedding of the call
`find_complete_paths_to_finals(source_col)` as made in
`_trace_end_to_end_lineage` (src line 501): fresh visited set and empty
path, with fuel that always suffices. -/
def find_complete_paths_to_finals (flows : List (String × List String))
    (c2t : List (String × String)) (finals : List String) (start : String) :
    List (List String) :=
  (find_complete_paths_to_finalsAux flows c2t finals (flows.length + 1)
    start [] []).getD []

/-- Helper: every path returned by the hybrid parser's depth-first
search is simple. -/
theorem find_complete_paths_to_finals_nodup (flows : List (String × List String))
    (c2t : List (String × String)) (finals : List String) (start : String) :
    ∀ p ∈ find_complete_paths_to_finals flows c2t finals start, p.Nodup := by
  intro p hp
  unfold find_complete_paths_to_finals at hp
  cases hout : find_complete_paths_to_finalsAux flows c2t finals
    (flows.length + 1) start [] [] with
  | none => rw [hout] at hp; cases hp
  | some out =>
    rw [hout] at hp
    simp only [Option.getD_some] at hp
    exact find_complete_paths_nodup flows c2t finals _ start [] [] out
      (by simp) (by simp) hout p hp

end Hybrid

namespace Generic

/-- Fuelled embedding of the recursive `find_all_paths_to_finals` closure
of `generic_sql_lineage_parser._trace_end_to_end_lineage` (src lines
445-470), structurally identical to the hybrid parser's
`find_complete_paths_to_finals` but operating on the generic parser's
set-valued flow graph. -/
def find_all_paths_to_finalsAux (all_flows : List (String × List String))
    (column_to_table : List (String × String)) (finals : List String) :
    Nat → String → List String → List String → Option (List (List String))
  | 0, _, _, _ => none
  | fuel + 1, start_col, visited, path =>
    if start_col ∈ visited then some []
    else
      let current_path := path ++ [start_col]
      let isFinal : Bool :=
        match alGet column_to_table start_col with
        | some table => decide (table ∈ finals)
        | none => false
      if isFinal then some [current_path]
      else
        (alGetD all_flows start_col).foldr
          (fun n acc =>
            optAppend (find_all_paths_to_finalsAux all_flows column_to_table
              finals fuel n (start_col :: visited) current_path) acc)
          (some [])

/-- `find_all_paths_to_finals(source_col)` as called at src line 483. -/
def find_all_paths_to_finals (all_flows : List (String × List String))
    (column_to_table : List (String × String)) (finals : List String)
    (start : String) : List (List String) :=
  (find_all_paths_to_finalsAux all_flows column_to_table finals
    (all_flows.length + 1) start [] []).getD []

end Generic

end LineageSpec

namespace LineageSpec

namespace Generic

/-- End-to-end mapping record assembled by
`generic_sql_lineage_parser._trace_end_to_end_lineage` (src lines
502-511); the constant `transformation_type` field and the debugging
fields `full_path`/`intermediate_count` are omitted. -/
structure GMapping where
  source_table : String
  source_column : String
  target_table : String
  target_column : String
  path_length : Nat
deriving DecidableEq, Repr

/-- Embedding of the emission loop of
`generic_sql_lineage_parser._trace_end_to_end_lineage` (src lines
472-511): for every flow key belonging to a source table, every complete
path found by `find_all_paths_to_finals` with at least two nodes and
parseable dotted endpoints is turned into a mapping, but only when the
target table is a member of the computed final target tables.  The
fallback branch for an empty result (src lines 513-554) applies the same
final-table guard, and the final deduplication (src lines 556-567) only
removes elements. -/
def trace_end_to_end_mappings (all_flows : List (String × List String))
    (column_to_table : List (String × String))
    (final_target_tables source_tables : List String) : List GMapping :=
  (all_flows.map (fun kv =>
    let source_col := kv.1
    match alGet column_to_table source_col with
    | none => ([] : List GMapping)
    | some source_table =>
      if source_table ∈ source_tables then
        (find_all_paths_to_finals all_flows column_to_table
            final_target_tables source_col).filterMap (fun path =>
          if 2 ≤ path.length then
            let source_full := path.headD ""
            let target_full := path.getLastD ""
            let source_parts := splitDot source_full
            let target_parts := splitDot target_full
            if 2 ≤ source_parts.length ∧ 2 ≤ target_parts.length then
              let target_table := joinDot target_parts.dropLast
              if target_table ∈ final_target_tables then
                some ⟨joinDot source_parts.dropLast, source_parts.getLastD "",
                  target_table, target_parts.getLastD "", path.length - 1⟩
              else none
            else none
          else none)
      else [])).flatten

/-- Claim C6 (amended): every emitted mapping's target table belongs to
the computed set of final target tables; since that set is built
excluding any name containing "#" or "temp", no emitted mapping targets a
sharp-temp table — but membership in the final set does not guarantee the
pattern categorizer calls the table "target". -/
theorem trace_end_to_end_mappings_target_final
    (all_flows : List (String × List String))
    (column_to_table : List (String × String))
    (final_target_tables source_tables : List String) (m : GMapping)
    (hm : m ∈ trace_end_to_end_mappings all_flows column_to_table
      final_target_tables source_tables)
    (hfin : ∀ tb ∈ final_target_tables,
      strContains tb "#" = false ∧ strContains tb "temp" = false) :
    m.target_table ∈ final_target_tables ∧
      strContains m.target_table "#" = false ∧
      strContains m.target_table "temp" = false := by
  unfold trace_end_to_end_mappings at hm
  rw [List.mem_flatten] at hm
  obtain ⟨inner, hinner, hmem⟩ := hm
  rw [List.mem_map] at hinner
  obtain ⟨kv, -, hkv⟩ := hinner
  subst hkv
  dsimp only at hmem
  cases hget : alGet column_to_table kv.1 with
  | none =>
    rw [hget] at hmem
    dsimp only at hmem
    cases hmem
  | some source_table =>
    rw [hget] at hmem
    dsimp only at hmem
    by_cases hsrc : source_table ∈ source_tables
    · rw [if_pos hsrc] at hmem
      rw [List.mem_filterMap] at hmem
      obtain ⟨path, -, hpath⟩ := hmem
      by_cases hlen : 2 ≤ path.length
      · rw [if_pos hlen] at hpath
        by_cases hparts : 2 ≤ (splitDot (path.headD "")).length ∧
            2 ≤ (splitDot (path.getLastD "")).length
        · rw [if_pos hparts] at hpath
          by_cases htt : joinDot (splitDot (path.getLastD "")).dropLast ∈
              final_target_tables
          · rw [if_pos htt] at hpath
            simp only [Option.some.injEq] at hpath
            subst hpath
            exact ⟨htt, hfin _ htt⟩
          · rw [if_neg htt] at hpath
            cases hpath
        · rw [if_neg hparts] at hpath
          cases hpath
      · rw [if_neg hlen] at hpath
        cases hpath
    · rw [if_neg hsrc] at hmem
      cases hmem

end Generic

end LineageSpec

namespace LineageSpec

/-- Keys of an upserted dictionary: unchanged if the key is present,
appended otherwise. -/
theorem alSet_keys {α : Type} (d : List (String × α)) (k : String) (v : α) :
    (alSet k v d).map Prod.fst =
      if k ∈ d.map Prod.fst then d.map Prod.fst
      else d.map Prod.fst ++ [k] := by
  induction d with
  | nil => simp [alSet]
  | cons p rest ih =>
    by_cases hp : p.1 = k
    · subst hp
      simp [alSet]
    · simp only [alSet, if_neg hp, List.map_cons, ih]
      by_cases hk : k ∈ rest.map Prod.fst
      · rw [if_pos hk, if_pos (List.mem_cons_of_mem _ hk)]
      · rw [if_neg hk, if_neg (by
          simp only [List.mem_cons, not_or]
          exact ⟨fun hh => hp hh.symm, hk⟩)]
        simp

/-- Upserting preserves distinctness of dictionary keys. -/
theorem alSet_keys_nodup {α : Type} (d : List (String × α)) (k : String)
    (v : α) (h : (d.map Prod.fst).Nodup) :
    ((alSet k v d).map Prod.fst).Nodup := by
  rw [alSet_keys]
  by_cases hk : k ∈ d.map Prod.fst
  · rwa [if_pos hk]
  · rw [if_neg hk]
    exact nodup_concat_of _ _ h hk

/-- An invariant preserved by a fold step is preserved by the fold. -/
theorem foldl_preserves {α β : Type} (P : β → Prop) (f : β → α → β)
    (hf : ∀ b a, P b → P (f b a)) :
    ∀ (l : List α) (b : β), P b → P (l.foldl f b) := by
  intro l
  induction l with
  | nil => intro b hb; exact hb
  | cons a l ih => intro b hb; exact ih _ (hf b a hb)

namespace Hybrid

/-! ## hybrid_sql_lineage_parser._discover_dynamic_bridges -/

/-- The fixed smart-mapping table of strategy 3 (src lines 309-317). -/
def common_mappings : List (String × String) :=
  [("hashid", "idempotencykey"), ("srcid", "batchid"),
   ("batchdate", "postingdate"), ("txnexternalid", "hashid"),
   ("fromccy", "fromcurrency"), ("toccy", "tocurrency"), ("fxrate", "rate")]

/-- Membership test of the `intermediate_tables` set (src lines 257-260):
a temp-named table that is neither a source nor a final target. -/
def isIntermediateTable (source_tables final_target_tables : List String)
    (table : String) : Bool :=
  (strStarts table "#" || strStarts table "<default>.#") &&
    !decide (table ∈ source_tables) && !decide (table ∈ final_target_tables)

/-- The `target_columns` dictionary (src lines 265-271): unqualified name
to the final-table columns bearing it, in insertion order. -/
def target_columns (c2t : List (String × String))
    (final_target_tables : List String) : List (String × List String) :=
  c2t.foldl (fun acc kv =>
    if kv.2 ∈ final_target_tables then alAppendList acc (lastPart kv.1) kv.1
    else acc) []

/-- The `intermediate_columns` dictionary (src lines 273-279). -/
def intermediate_columns (c2t : List (String × String))
    (source_tables final_target_tables : List String) :
    List (String × List String) :=
  c2t.foldl (fun acc kv =>
    if isIntermediateTable source_tables final_target_tables kv.2 then
      alAppendList acc (lastPart kv.1) kv.1
    else acc) []

/-- The guard `intermediate_col not in comprehensive_flows or target_col
not in comprehensive_flows.get(intermediate_col, [])` (src line 287). -/
def no_edge (flows : List (String × List String)) (i t : String) : Bool :=
  match alGet flows i with
  | none => true
  | some l => !decide (t ∈ l)

/-- Strategy 1 of `_discover_dynamic_bridges` (src lines 282-289): for
every unqualified name shared between intermediate and target columns,
assign `bridges[intermediate_col] = target_col` for every matching pair
without an existing forward edge.  The bridges dictionary is keyed by the
intermediate column, so a later matching target column overwrites an
earlier one. -/
def bridges_strategy1 (flows : List (String × List String))
    (tcols icols : List (String × List String))
    (bridges : List (String × String)) : List (String × String) :=
  icols.foldl (fun acc entry =>
    match alGet tcols entry.1 with
    | none => acc
    | some tlist =>
      entry.2.foldl (fun acc2 intermediate_col =>
        tlist.foldl (fun acc3 target_col =>
          if no_edge flows intermediate_col target_col then
            alSet intermediate_col target_col acc3
          else acc3) acc2) acc) bridges

/-- Strategy 2 of `_discover_dynamic_bridges` (src lines 291-306): bridge
equal-named columns between the tables of each C# MERGE pattern. -/
def bridges_strategy2 (c2t : List (String × String))
    (merge_patterns : List (String × String))
    (bridges : List (String × String)) : List (String × String) :=
  merge_patterns.foldl (fun acc pat =>
    let source_table := lowerS pat.1
    let target_table := lowerS pat.2
    if source_table ≠ "" ∧ target_table ≠ "" then
      let source_cols := (c2t.filter (fun kv => kv.2 = source_table)).map Prod.fst
      let target_cols := (c2t.filter (fun kv => kv.2 = target_table)).map Prod.fst
      source_cols.foldl (fun acc2 source_col =>
        (target_cols.filter
            (fun tc => lastPart tc = lastPart source_col)).foldl
          (fun acc3 target_col => alSet source_col target_col acc3) acc2) acc
    else acc) bridges

/-- Strategy 3 of `_discover_dynamic_bridges` (src lines 308-329): apply
the fixed smart-mapping table from intermediate columns to the target
columns carrying the mapped name. -/
def bridges_strategy3 (flows : List (String × List String))
    (c2t : List (String × String))
    (source_tables final_target_tables : List String)
    (tcols : List (String × List String))
    (bridges : List (String × String)) : List (String × String) :=
  c2t.foldl (fun acc kv =>
    if isIntermediateTable source_tables final_target_tables kv.2 then
      match alGet common_mappings (lastPart kv.1) with
      | none => acc
      | some target_column_name =>
        (alGetD tcols target_column_name).foldl (fun acc2 target_col =>
          if no_edge flows kv.1 target_col then alSet kv.1 target_col acc2
          else acc2) acc
    else acc) bridges

/-- Embedding of `hybrid_sql_lineage_parser._discover_dynamic_bridges`
(src lines 252-331): the three strategies applied in order to an
initially empty bridges dictionary. -/
def discover_dynamic_bridges (flows : List (String × List String))
    (c2t : List (String × String))
    (source_tables final_target_tables : List String)
    (merge_patterns : List (String × String)) : List (String × String) :=
  let tcols := target_columns c2t final_target_tables
  let icols := intermediate_columns c2t source_tables final_target_tables
  bridges_strategy3 flows c2t source_tables final_target_tables tcols
    (bridges_strategy2 c2t merge_patterns
      (bridges_strategy1 flows tcols icols []))

/-- Distinct keys are maintained by every strategy. -/
theorem discover_dynamic_bridges_keys_nodup
    (flows : List (String × List String)) (c2t : List (String × String))
    (source_tables final_target_tables : List String)
    (merge_patterns : List (String × String)) :
    ((discover_dynamic_bridges flows c2t source_tables final_target_tables
      merge_patterns).map Prod.fst).Nodup := by
  have P : List (String × String) → Prop :=
    fun d => (d.map Prod.fst).Nodup
  have hset : ∀ (d : List (String × String)) (i t : String),
      ((d.map Prod.fst).Nodup) → (((alSet i t d).map Prod.fst).Nodup) :=
    fun d i t h => alSet_keys_nodup d i t h
  unfold discover_dynamic_bridges
  dsimp only
  unfold bridges_strategy3
  apply foldl_preserves (fun d : List (String × String) => (d.map Prod.fst).Nodup)
  · intro b kv hb
    by_cases hI : isIntermediateTable source_tables final_target_tables kv.2 = true
    · rw [if_pos hI]
      cases hg : alGet common_mappings (lastPart kv.1) with
      | none => exact hb
      | some tcn =>
        apply foldl_preserves (fun d : List (String × String) => (d.map Prod.fst).Nodup)
        · intro b2 tc hb2
          by_cases he : no_edge flows kv.1 tc = true
          · rw [if_pos he]
            exact hset _ _ _ hb2
          · rwa [if_neg he]
        · exact hb
    · rwa [if_neg hI]
  · unfold bridges_strategy2
    apply foldl_preserves (fun d : List (String × String) => (d.map Prod.fst).Nodup)
    · intro b pat hb
      by_cases hne : lowerS pat.1 ≠ "" ∧ lowerS pat.2 ≠ ""
      · rw [if_pos hne]
        apply foldl_preserves (fun d : List (String × String) => (d.map Prod.fst).Nodup)
        · intro b2 sc hb2
          apply foldl_preserves (fun d : List (String × String) => (d.map Prod.fst).Nodup)
          · intro b3 tc hb3
            exact hset _ _ _ hb3
          · exact hb2
        · exact hb
      · rwa [if_neg hne]
    · unfold bridges_strategy1
      apply foldl_preserves (fun d : List (String × String) => (d.map Prod.fst).Nodup)
      · intro b entry hb
        cases hg : alGet (target_columns c2t final_target_tables) entry.1 with
        | none => exact hb
        | some tlist =>
          apply foldl_preserves (fun d : List (String × String) => (d.map Prod.fst).Nodup)
          · intro b2 ic hb2
            apply foldl_preserves (fun d : List (String × String) => (d.map Prod.fst).Nodup)
            · intro b3 tc hb3
              by_cases he : no_edge flows ic tc = true
              · rw [if_pos he]
                exact hset _ _ _ hb3
              · rwa [if_neg he]
            · exact hb2
          · exact hb
      · simp

end Hybrid

end LineageSpec

namespace LineageSpec

/-! ## Lexicographic string comparison, as Python compares key tuples -/

/-- Python `<` on strings: lexicographic comparison of code points. -/
def lexLt : List Char → List Char → Bool
  | [], [] => false
  | [], _ :: _ => true
  | _ :: _, [] => false
  | a :: as, b :: bs =>
    if a < b then true
    else if b < a then false
    else lexLt as bs

theorem lexLt_irrefl : ∀ x : List Char, lexLt x x = false := by
  intro x
  induction x with
  | nil => rfl
  | cons a as ih => simp [lexLt, ih]

theorem lexLt_asymm : ∀ x y : List Char, lexLt x y = true → lexLt y x = false := by
  intro x
  induction x with
  | nil =>
    intro y h
    cases y with
    | nil => simp [lexLt] at h
    | cons b bs => simp [lexLt]
  | cons a as ih =>
    intro y h
    cases y with
    | nil => simp [lexLt] at h
    | cons b bs =>
      simp only [lexLt] at h ⊢
      rcases lt_trichotomy a b with hab | hab | hab
      · rw [if_neg (lt_asymm hab), if_pos hab]
      · subst hab
        rw [if_neg (lt_irrefl a), if_neg (lt_irrefl a)] at h ⊢
        exact ih bs h
      · rw [if_neg (lt_asymm hab), if_pos hab] at h
        cases h

theorem lexLt_trans : ∀ x y z : List Char,
    lexLt x y = true → lexLt y z = true → lexLt x z = true := by
  intro x
  induction x with
  | nil =>
    intro y z h1 h2
    cases y with
    | nil => simp [lexLt] at h1
    | cons b bs =>
      cases z with
      | nil => simp [lexLt] at h2
      | cons c cs => simp [lexLt]
  | cons a as ih =>
    intro y z h1 h2
    cases y with
    | nil => simp [lexLt] at h1
    | cons b bs =>
      cases z with
      | nil => simp [lexLt] at h2
      | cons c cs =>
        simp only [lexLt] at h1 h2 ⊢
        rcases lt_trichotomy a b with hab | hab | hab
        · rcases lt_trichotomy b c with hbc | hbc | hbc
          · rw [if_pos (lt_trans hab hbc)]
          · subst hbc
            rw [if_pos hab]
          · rw [if_neg (lt_asymm hbc), if_pos hbc] at h2
            cases h2
        · subst hab
          rcases lt_trichotomy a c with hac | hac | hac
          · rw [if_pos hac]
          · subst hac
            rw [if_neg (lt_irrefl a), if_neg (lt_irrefl a)] at h1 h2 ⊢
            exact ih bs cs h1 h2
          · rw [if_neg (lt_asymm hac), if_pos hac] at h2
            cases h2
        · rw [if_neg (lt_asymm hab), if_pos hab] at h1
          cases h1

theorem lexLt_total : ∀ x y : List Char,
    lexLt x y = true ∨ lexLt y x = true ∨ x = y := by
  intro x
  induction x with
  | nil =>
    intro y
    cases y with
    | nil => right; right; rfl
    | cons b bs => left; rfl
  | cons a as ih =>
    intro y
    cases y with
    | nil => right; left; rfl
    | cons b bs =>
      rcases lt_trichotomy a b with hab | hab | hab
      · left
        simp [lexLt, hab]
      · subst hab
        rcases ih bs with h | h | h
        · left
          simp [lexLt, h]
        · right; left
          simp [lexLt, h]
        · right; right
          rw [h]
      · right; left
        simp [lexLt, hab]

/-- Sort key of `enhanced_lineage_parser.generate_report` (src line 406):
the tuple `(target_table, source_table, source_column)`. -/
def tripLt (a b : String × String × String) : Bool :=
  lexLt a.1.data b.1.data ||
    (decide (a.1 = b.1) && (lexLt a.2.1.data b.2.1.data ||
      (decide (a.2.1 = b.2.1) && lexLt a.2.2.data b.2.2.data)))

theorem str_data_inj (s t : String) (h : s.data = t.data) : s = t :=
  congrArg String.mk h

theorem tripLt_iff (a b : String × String × String) :
    tripLt a b = true ↔
      lexLt a.1.data b.1.data = true ∨
        (a.1 = b.1 ∧ (lexLt a.2.1.data b.2.1.data = true ∨
          (a.2.1 = b.2.1 ∧ lexLt a.2.2.data b.2.2.data = true))) := by
  simp [tripLt, Bool.or_eq_true, Bool.and_eq_true, decide_eq_true_eq]

theorem tripLt_asymm (a b : String × String × String)
    (h : tripLt a b = true) : tripLt b a = false := by
  rw [Bool.eq_false_iff]
  intro hc
  rw [tripLt_iff] at h hc
  rcases h with h1 | ⟨he1, h2⟩
  · rcases hc with c1 | ⟨ce1, c2⟩
    · rw [lexLt_asymm _ _ h1] at c1
      cases c1
    · rw [ce1] at h1
      rw [lexLt_irrefl] at h1
      cases h1
  · rcases hc with c1 | ⟨ce1, c2⟩
    · rw [he1] at c1
      rw [lexLt_irrefl] at c1
      cases c1
    · rcases h2 with h2 | ⟨he2, h3⟩
      · rcases c2 with c2 | ⟨ce2, c3⟩
        · rw [lexLt_asymm _ _ h2] at c2
          cases c2
        · rw [ce2] at h2
          rw [lexLt_irrefl] at h2
          cases h2
      · rcases c2 with c2 | ⟨ce2, c3⟩
        · rw [he2] at c2
          rw [lexLt_irrefl] at c2
          cases c2
        · rw [lexLt_asymm _ _ h3] at c3
          cases c3

theorem tripLt_trans (a b c : String × String × String)
    (h1 : tripLt a b = true) (h2 : tripLt b c = true) : tripLt a c = true := by
  rw [tripLt_iff] at h1 h2 ⊢
  rcases h1 with h1 | ⟨e1, h1⟩
  · rcases h2 with h2 | ⟨e2, h2⟩
    · exact Or.inl (lexLt_trans _ _ _ h1 h2)
    · rw [e2] at h1
      exact Or.inl h1
  · rcases h2 with h2 | ⟨e2, h2⟩
    · rw [e1]
      exact Or.inl h2
    · refine Or.inr ⟨e1.trans e2, ?_⟩
      rcases h1 with h1 | ⟨e1', h1⟩
      · rcases h2 with h2 | ⟨e2', h2⟩
        · exact Or.inl (lexLt_trans _ _ _ h1 h2)
        · rw [e2'] at h1
          exact Or.inl h1
      · rcases h2 with h2 | ⟨e2', h2⟩
        · rw [e1']
          exact Or.inl h2
        · exact Or.inr ⟨e1'.trans e2', lexLt_trans _ _ _ h1 h2⟩

theorem tripLt_total (a b : String × String × String) :
    tripLt a b = true ∨ tripLt b a = true ∨ a = b := by
  rcases lexLt_total a.1.data b.1.data with h1 | h1 | h1
  · exact Or.inl ((tripLt_iff a b).mpr (Or.inl h1))
  · exact Or.inr (Or.inl ((tripLt_iff b a).mpr (Or.inl h1)))
  · have e1 : a.1 = b.1 := str_data_inj _ _ h1
    rcases lexLt_total a.2.1.data b.2.1.data with h2 | h2 | h2
    · exact Or.inl ((tripLt_iff a b).mpr (Or.inr ⟨e1, Or.inl h2⟩))
    · exact Or.inr (Or.inl ((tripLt_iff b a).mpr (Or.inr ⟨e1.symm, Or.inl h2⟩)))
    · have e2 : a.2.1 = b.2.1 := str_data_inj _ _ h2
      rcases lexLt_total a.2.2.data b.2.2.data with h3 | h3 | h3
      · exact Or.inl ((tripLt_iff a b).mpr (Or.inr ⟨e1, Or.inr ⟨e2, h3⟩⟩))
      · exact Or.inr (Or.inl ((tripLt_iff b a).mpr
          (Or.inr ⟨e1.symm, Or.inr ⟨e2.symm, h3⟩⟩)))
      · have e3 : a.2.2 = b.2.2 := str_data_inj _ _ h3
        right; right
        obtain ⟨a1, a2, a3⟩ := a
        obtain ⟨b1, b2, b3⟩ := b
        simp only at e1 e2 e3
        rw [e1, e2, e3]

namespace Enhanced

/-- One end-to-end mapping of `enhanced_lineage_parser`; only the four
identifying fields used by `generate_report` are modelled. -/
structure EMapping where
  source_table : String
  source_column : String
  target_table : String
  target_column : String
deriving DecidableEq, Repr

/-- The sort key `(x['target_table'], x['source_table'],
x['source_column'])` of `generate_report` (src line 406). -/
def sortKey (m : EMapping) : String × String × String :=
  (m.target_table, m.source_table, m.source_column)

/-- Strict comparison of two mappings by the report sort key. -/
def keyLt (m₁ m₂ : EMapping) : Bool := tripLt (sortKey m₁) (sortKey m₂)

/-- Stable insertion into a key-sorted list: the new element goes in
front of the first element that is not strictly below it, which is where
Python's stable `sorted` would keep an earlier-enumerated element. -/
def insertMapping (m : EMapping) : List EMapping → List EMapping
  | [] => [m]
  | x :: l => if keyLt x m = true then x :: insertMapping m l else m :: x :: l

/-- Embedding of the sort in `enhanced_lineage_parser.generate_report`
(src lines 405-406): a stable sort of the mapping list by
`(target_table, source_table, source_column)`.  Python's `sorted` is
stable, and a stable sort by a fixed key is uniquely determined, so this
insertion sort computes exactly what `sorted` returns. -/
def sortMappings : List EMapping → List EMapping
  | [] => []
  | x :: l => insertMapping x (sortMappings l)

theorem keyLt_R_trans (a b c : EMapping) (h1 : keyLt b a = false)
    (h2 : keyLt c b = false) : keyLt c a = false := by
  rw [Bool.eq_false_iff] at h1 h2 ⊢
  intro hca
  rcases tripLt_total (sortKey a) (sortKey b) with h | h | h
  · exact h2 (tripLt_trans _ _ _ hca h)
  · exact h1 h
  · rw [keyLt] at hca
    rw [h] at hca
    exact h2 hca

theorem insertMapping_perm (m : EMapping) (l : List EMapping) :
    (insertMapping m l).Perm (m :: l) := by
  induction l with
  | nil => exact List.Perm.refl _
  | cons x l ih =>
    by_cases h : keyLt x m = true
    · rw [insertMapping, if_pos h]
      exact (ih.cons x).trans (List.Perm.swap m x l)
    · rw [insertMapping, if_neg h]

theorem sortMappings_perm (l : List EMapping) : (sortMappings l).Perm l := by
  induction l with
  | nil => exact List.Perm.refl _
  | cons x l ih =>
    exact (insertMapping_perm x (sortMappings l)).trans (ih.cons x)

theorem insertMapping_sorted (m : EMapping) (l : List EMapping)
    (h : List.Pairwise (fun a b => keyLt b a = false) l) :
    List.Pairwise (fun a b => keyLt b a = false) (insertMapping m l) := by
  induction l with
  | nil => simp [insertMapping]
  | cons x l ih =>
    rw [List.pairwise_cons] at h
    by_cases hg : keyLt x m = true
    · rw [insertMapping, if_pos hg]
      rw [List.pairwise_cons]
      refine ⟨?_, ih h.2⟩
      intro y hy
      rcases List.mem_cons.mp ((insertMapping_perm m l).mem_iff.mp hy) with hm | hm
      · rw [hm]
        exact tripLt_asymm _ _ hg
      · exact h.1 y hm
    · rw [insertMapping, if_neg hg]
      rw [List.pairwise_cons]
      refine ⟨?_, List.pairwise_cons.mpr h⟩
      intro y hy
      rcases List.mem_cons.mp hy with rfl | hm
      · exact Bool.eq_false_iff.mpr hg
      · exact keyLt_R_trans m x y (Bool.eq_false_iff.mpr hg) (h.1 y hm)

theorem sortMappings_sorted (l : List EMapping) :
    List.Pairwise (fun a b => keyLt b a = false) (sortMappings l) := by
  induction l with
  | nil => simp [sortMappings]
  | cons x l ih => exact insertMapping_sorted x (sortMappings l) ih

end Enhanced

end LineageSpec

namespace LineageSpec

namespace BizLogic

/-! ## business_logic_lineage_analyzer: evidence scoring -/

/-- Outcomes of the text matches performed for one expected mapping by
`business_logic_lineage_analyzer.manual_lineage_analysis` (src lines
136-199).  Each flag records whether the corresponding regex or substring
search over the SQL text and the mapping specs succeeded; the searches
themselves operate on the out-of-scope SQL text. -/
structure EvidenceInput where
  hasSourceColumn : Bool
  hasTargetColumn : Bool
  directAssign : Bool
  aliasMatch : Bool
  selectTogether : Bool
  sourceTableRef : Bool
  targetTableRef : Bool
  feeNames : Bool
  feeKeyword : Bool
  currencyNames : Bool
  currencyKeyword : Bool
  glNames : Bool
  glKeyword : Bool
deriving DecidableEq, Repr

/-- Embedding of the sequential evidence-score accumulation (src lines
136-199): +3 for a direct assignment, else +3 for a column alias, else +1
for co-occurrence in a SELECT (only when both column names are present);
+1 each for a referenced source and target table; +2 for each domain
corroboration (fee, currency, general ledger). -/
def evidence_score (i : EvidenceInput) : Nat :=
  let s0 : Nat := 0
  let s1 := if i.hasSourceColumn && i.hasTargetColumn then
      (if i.directAssign then s0 + 3
       else if i.aliasMatch then s0 + 3
       else if i.selectTogether then s0 + 1 else s0)
    else s0
  let s2 := if i.sourceTableRef then s1 + 1 else s1
  let s3 := if i.targetTableRef then s2 + 1 else s2
  let s4 := if i.feeNames && i.feeKeyword then s3 + 2 else s3
  let s5 := if i.currencyNames && i.currencyKeyword then s4 + 2 else s4
  let s6 := if i.glNames && i.glKeyword then s5 + 2 else s5
  s6

/-- Embedding of the status assignment (src lines 201-207). -/
def validation_status (score : Nat) : String :=
  if 4 ≤ score then "✅ STRONG EVIDENCE"
  else if 2 ≤ score then "⚠️ MODERATE EVIDENCE"
  else "❌ WEAK EVIDENCE"

theorem validation_status_strong_iff (s : Nat) :
    validation_status s = "✅ STRONG EVIDENCE" ↔ 4 ≤ s := by
  unfold validation_status
  split_ifs with h1 h2
  · exact iff_of_true rfl h1
  · exact iff_of_false (by decide) h1
  · exact iff_of_false (by decide) h1

theorem validation_status_moderate_iff (s : Nat) :
    validation_status s = "⚠️ MODERATE EVIDENCE" ↔ (s = 2 ∨ s = 3) := by
  unfold validation_status
  split_ifs with h1 h2
  · exact iff_of_false (by decide) (by omega)
  · exact iff_of_true rfl (by omega)
  · exact iff_of_false (by decide) (by omega)

theorem validation_status_weak_iff (s : Nat) :
    validation_status s = "❌ WEAK EVIDENCE" ↔ s < 2 := by
  unfold validation_status
  split_ifs with h1 h2
  · exact iff_of_false (by decide) (by omega)
  · exact iff_of_false (by decide) (by omega)
  · exact iff_of_true rfl (by omega)

theorem ite_add_shift (c : Prop) [Decidable c] (s k : Nat) :
    (if c then s + k else s) = s + (if c then k else 0) := by
  split_ifs <;> omega

theorem evidence_score_additive (i : EvidenceInput) :
    evidence_score i =
      (if i.hasSourceColumn && i.hasTargetColumn then
        (if i.directAssign then 3 else if i.aliasMatch then 3
         else if i.selectTogether then 1 else 0) else 0) +
      (if i.sourceTableRef then 1 else 0) +
      (if i.targetTableRef then 1 else 0) +
      (if i.feeNames && i.feeKeyword then 2 else 0) +
      (if i.currencyNames && i.currencyKeyword then 2 else 0) +
      (if i.glNames && i.glKeyword then 2 else 0) := by
  unfold evidence_score
  dsimp only
  rw [ite_add_shift, ite_add_shift, ite_add_shift, ite_add_shift, ite_add_shift]

end BizLogic

end LineageSpec

namespace LineageSpec

/-! ## Claim theorems -/

/-- Claim C1 counterexample: on the diamond graph with edges s→a, s→b,
a→t, b→t there are two distinct simple paths of length 2 from s to t —
`find_paths` on the same adjacency returns both — yet the cited path
search `trace_end_to_end_path` returns only the single path [s, a, t].
This refutes the claim that every cited path search returns every simple
path within the bound. -/
theorem trace_end_to_end_path_not_all_paths :
    Tracer.trace_end_to_end_path
        [("s", ["a", "b"]), ("a", ["t"]), ("b", ["t"])] "s" "t" 10 =
      some ["s", "a", "t"] ∧
    Analyzer.find_paths [("s", ["a", "b"]), ("a", ["t"]), ("b", ["t"])]
        "s" "t" 10 = [["s", "a", "t"], ["s", "b", "t"]] ∧
    (["s", "b", "t"] : List String) ≠ ["s", "a", "t"] := by
  refine ⟨by decide, by decide, by decide⟩

/-- Witness for `find_paths_returns_all_simple_paths`: the second simple
path of the diamond graph is indeed returned. -/
theorem find_paths_returns_all_simple_paths_witness :
    (["s", "b", "t"] : List String) ∈
      Analyzer.find_paths [("s", ["a", "b"]), ("a", ["t"]), ("b", ["t"])]
        "s" "t" 15 :=
  Analyzer.find_paths_returns_all_simple_paths
    [("s", ["a", "b"]), ("a", ["t"]), ("b", ["t"])] "s" "t" 15
    ["s", "b", "t"] (by decide) (by decide) (by decide) (by decide) (by decide)

/-- Claim C4: every path returned by the path searches is simple — no
column occurs at two distinct positions — because the visited state is
per path: `find_paths` guards on membership in the current path, and
`find_complete_paths_to_finals` copies its visited set per branch. -/
theorem returned_paths_are_simple :
    (∀ (g : List (String × List String)) (s t : String) (maxD : Nat)
      (p : List String), p ∈ Analyzer.find_paths g s t maxD → p.Nodup) ∧
    (∀ (flows : List (String × List String)) (c2t : List (String × String))
      (finals : List String) (start : String) (p : List String),
      p ∈ Hybrid.find_complete_paths_to_finals flows c2t finals start →
        p.Nodup) := by
  constructor
  · intro g s t maxD p hp
    exact (Analyzer.find_paths_sound g s t maxD p hp).1
  · intro flows c2t finals start p hp
    exact Hybrid.find_complete_paths_to_finals_nodup flows c2t finals start p hp

/-- Witness for `returned_paths_are_simple` on the two-node cycle graph
a.x→b.y→a.x: both searches return the path [a.x, b.y], and it is
duplicate-free. -/
theorem returned_paths_are_simple_witness :
    (["a.x", "b.y"] : List String).Nodup ∧
      (["a.x", "b.y"] : List String).Nodup :=
  ⟨returned_paths_are_simple.1 [("a.x", ["b.y"]), ("b.y", ["a.x"])]
      "a.x" "b.y" 15 ["a.x", "b.y"] (by decide),
    returned_paths_are_simple.2 [("a.x", ["b.y"]), ("b.y", ["a.x"])]
      [("a.x", "a"), ("b.y", "b")] ["b"] "a.x" ["a.x", "b.y"] (by decide)⟩

/-- Claim C5: the path searches terminate on every finite graph,
including cyclic ones.  Both loops are fuelled, and once the fuel reaches
the stated computable bound the run completes and its result never
changes with more fuel; on the cycle a.x→b.y→a.x with a.x as start and
b.y final, both searches return exactly the single valid simple path
[a.x, b.y]. -/
theorem path_search_terminates_on_cycles :
    (∀ (g : List (String × List String)) (s t : String) (maxD fuel : Nat),
      Analyzer.find_paths_fuel g maxD ≤ fuel →
      (Analyzer.find_pathsAux g t maxD fuel [(s, [s])] [] =
        Analyzer.find_pathsAux g t maxD (Analyzer.find_paths_fuel g maxD)
          [(s, [s])] [] ∧
      (Analyzer.find_pathsAux g t maxD (Analyzer.find_paths_fuel g maxD)
        [(s, [s])] []).isSome = true)) ∧
    (∀ (flows : List (String × List String)) (c2t : List (String × String))
      (finals : List String) (start : String) (fuel : Nat),
      flows.length + 1 ≤ fuel →
      (Hybrid.find_complete_paths_to_finalsAux flows c2t finals fuel
        start [] [] =
        Hybrid.find_complete_paths_to_finalsAux flows c2t finals
          (flows.length + 1) start [] [] ∧
      (Hybrid.find_complete_paths_to_finalsAux flows c2t finals
        (flows.length + 1) start [] []).isSome = true)) ∧
    Analyzer.find_paths [("a.x", ["b.y"]), ("b.y", ["a.x"])] "a.x" "b.y" 15 =
      [["a.x", "b.y"]] ∧
    Hybrid.find_complete_paths_to_finals [("a.x", ["b.y"]), ("b.y", ["a.x"])]
      [("a.x", "a"), ("b.y", "b")] ["b"] "a.x" = [["a.x", "b.y"]] := by
  refine ⟨?_, ?_, by decide, by decide⟩
  · intro g s t maxD fuel hle
    have hmeas : Analyzer.queueMeasure maxD (Analyzer.branchBound g)
        [(s, [s])] < Analyzer.find_paths_fuel g maxD := by
      simp only [Analyzer.queueMeasure, Analyzer.entryWeight, List.map_cons,
        List.map_nil, List.sum_cons, List.sum_nil, List.length_singleton,
        Analyzer.find_paths_fuel]
      have hE : maxD + 2 - 1 = maxD + 1 := by omega
      rw [hE]
      omega
    have hsome := Analyzer.find_pathsAux_isSome g t maxD
      (Analyzer.find_paths_fuel g maxD) [(s, [s])] [] hmeas
    obtain ⟨out, hout⟩ := Option.isSome_iff_exists.mp hsome
    refine ⟨?_, by rw [hout]; rfl⟩
    rw [hout]
    exact Analyzer.find_pathsAux_mono g t maxD _ fuel _ _ out hout hle
  · intro flows c2t finals start fuel hle
    have hmeas : Hybrid.keysLeft flows [] < flows.length + 1 := by
      have : Hybrid.keysLeft flows [] ≤ (flows.map Prod.fst).length := by
        unfold Hybrid.keysLeft
        exact List.length_filter_le _ _
      simp only [List.length_map] at this
      omega
    have hsome := Hybrid.find_complete_paths_isSome flows c2t finals
      (flows.length + 1) start [] [] hmeas
    obtain ⟨out, hout⟩ := Option.isSome_iff_exists.mp hsome
    refine ⟨?_, by rw [hout]; rfl⟩
    rw [hout]
    exact Hybrid.find_complete_paths_mono flows c2t finals _ fuel start
      [] [] out hout hle

/-- Witness for `path_search_terminates_on_cycles`: both quantified parts
applied to the cycle graph at exactly the computed fuel bound. -/
theorem path_search_terminates_on_cycles_witness :
    (Analyzer.find_pathsAux [("a.x", ["b.y"]), ("b.y", ["a.x"])] "b.y" 15
        (Analyzer.find_paths_fuel [("a.x", ["b.y"]), ("b.y", ["a.x"])] 15)
        [("a.x", ["a.x"])] []).isSome = true ∧
    (Hybrid.find_complete_paths_to_finalsAux [("a.x", ["b.y"]), ("b.y", ["a.x"])]
        [("a.x", "a"), ("b.y", "b")] ["b"] 3 "a.x" [] []).isSome = true :=
  ⟨(path_search_terminates_on_cycles.1 [("a.x", ["b.y"]), ("b.y", ["a.x"])]
      "a.x" "b.y" 15 _ (le_refl _)).2,
    (path_search_terminates_on_cycles.2.1 [("a.x", ["b.y"]), ("b.y", ["a.x"])]
      [("a.x", "a"), ("b.y", "b")] ["b"] "a.x" 3 (by decide)).2⟩

/-- Claim C6 counterexample: with the flow staging.t.a → core.glwork.b
and an INSERT-derived final-table set containing core.glwork — a name
containing neither "#" nor "temp", so the exclusion filter admits it —
the tracer emits a mapping whose target table core.glwork is classified
"intermediate" (it contains "work") by the same module's pattern
categorizer, refuting the claim that no emitted mapping has an
Intermediate target table. -/
theorem emitted_mapping_categorized_intermediate :
    Generic.trace_end_to_end_mappings [("staging.t.a", ["core.glwork.b"])]
        [("staging.t.a", "staging.t"), ("core.glwork.b", "core.glwork")]
        ["core.glwork"] ["staging.t"] =
      [⟨"staging.t", "a", "core.glwork", "b", 1⟩] ∧
    strContains "core.glwork" "#" = false ∧
    strContains "core.glwork" "temp" = false ∧
    Generic.categorize_table "core.glwork" = "intermediate" ∧
    "intermediate" ≠ "target" := by
  refine ⟨by decide, by decide, by decide, by decide, by decide⟩

/-- Witness for `trace_end_to_end_mappings_target_final`, at the same
concrete input as the counterexample. -/
theorem trace_end_to_end_mappings_target_final_witness :
    ("core.glwork" : String) ∈ ["core.glwork"] ∧
      strContains "core.glwork" "#" = false ∧
      strContains "core.glwork" "temp" = false :=
  Generic.trace_end_to_end_mappings_target_final
    [("staging.t.a", ["core.glwork.b"])]
    [("staging.t.a", "staging.t"), ("core.glwork.b", "core.glwork")]
    ["core.glwork"] ["staging.t"] ⟨"staging.t", "a", "core.glwork", "b", 1⟩
    (by decide) (by decide)

/-- Claim C7 counterexample: the intermediate column #w.x and both target
columns core.a.x and core.b.x share the unqualified name x, neither pair
has an existing forward edge, yet only the bridge to core.b.x — the last
matching target in iteration order — survives, because the bridges
dictionary is keyed by the intermediate column and the second assignment
overwrites the first.  This refutes the claim that one bridge edge is
proposed per matching target column. -/
theorem discover_dynamic_bridges_overwrite_cex :
    lastPart "#w.x" = "x" ∧ lastPart "core.a.x" = "x" ∧
    lastPart "core.b.x" = "x" ∧
    Hybrid.no_edge [] "#w.x" "core.a.x" = true ∧
    Hybrid.no_edge [] "#w.x" "core.b.x" = true ∧
    Hybrid.isIntermediateTable [] ["core.a", "core.b"] "#w" = true ∧
    ("#w.x", "core.a.x") ∉
      Hybrid.discover_dynamic_bridges []
        [("#w.x", "#w"), ("core.a.x", "core.a"), ("core.b.x", "core.b")]
        [] ["core.a", "core.b"] [] := by
  refine ⟨by decide, by decide, by decide, by decide, by decide, by decide,
    by decide⟩

/-- Claim C7 (amended): the bridge resolver considers every exact-name
pair of an intermediate-table column and a target-table column with no
existing forward edge, but it stores bridges in a dictionary keyed by the
intermediate column, so at most one bridge per intermediate column
survives — the one to the last matching target column in iteration
order.  The keys of the returned dictionary are always distinct, and on
the two-target example only the bridge to core.b.x remains. -/
theorem discover_dynamic_bridges_at_most_one :
    (∀ (flows : List (String × List String)) (c2t : List (String × String))
      (sources finals : List String) (mp : List (String × String)),
      ((Hybrid.discover_dynamic_bridges flows c2t sources finals mp).map
        Prod.fst).Nodup) ∧
    Hybrid.discover_dynamic_bridges []
        [("#w.x", "#w"), ("core.a.x", "core.a"), ("core.b.x", "core.b")]
        [] ["core.a", "core.b"] [] = [("#w.x", "core.b.x")] := by
  refine ⟨?_, by decide⟩
  intro flows c2t sources finals mp
  exact Hybrid.discover_dynamic_bridges_keys_nodup flows c2t sources finals mp

/-- Claim C8: the evidence score is the sum of the independent additive
signals — 3 for a direct-assignment or alias column match (1 for mere
co-occurrence in a SELECT), 1 each for a referenced source and target
table, 2 per domain-pattern corroboration — and the status is Verified
(strong) exactly when the score is at least 4, Partial (moderate) exactly
when it is 2 or 3, and NotFound (weak) exactly when it is below 2. -/
theorem evidence_score_signals_and_thresholds :
    ∀ i : BizLogic.EvidenceInput,
      BizLogic.evidence_score i =
        (if i.hasSourceColumn && i.hasTargetColumn then
          (if i.directAssign then 3 else if i.aliasMatch then 3
           else if i.selectTogether then 1 else 0) else 0) +
        (if i.sourceTableRef then 1 else 0) +
        (if i.targetTableRef then 1 else 0) +
        (if i.feeNames && i.feeKeyword then 2 else 0) +
        (if i.currencyNames && i.currencyKeyword then 2 else 0) +
        (if i.glNames && i.glKeyword then 2 else 0) ∧
      (BizLogic.validation_status (BizLogic.evidence_score i) =
        "✅ STRONG EVIDENCE" ↔ 4 ≤ BizLogic.evidence_score i) ∧
      (BizLogic.validation_status (BizLogic.evidence_score i) =
        "⚠️ MODERATE EVIDENCE" ↔
        (BizLogic.evidence_score i = 2 ∨ BizLogic.evidence_score i = 3)) ∧
      (BizLogic.validation_status (BizLogic.evidence_score i) =
        "❌ WEAK EVIDENCE" ↔ BizLogic.evidence_score i < 2) :=
  fun i =>
    ⟨BizLogic.evidence_score_additive i,
      BizLogic.validation_status_strong_iff _,
      BizLogic.validation_status_moderate_iff _,
      BizLogic.validation_status_weak_iff _⟩

/-- Claim C9 counterexample: two mappings that agree on target table,
source table and source column but differ in target column compare equal
under the report's sort key, so the stable sort keeps them in input
order; the two enumeration orders of the same mapping set produce
different reports.  This refutes byte-identical output for identical
mapping sets. -/
theorem generate_report_tie_order_cex :
    ([⟨"staging.transactions", "srcid", "core.ledgerfinal", "idempotencykey"⟩,
      ⟨"staging.transactions", "srcid", "core.ledgerfinal", "batchid"⟩] :
      List Enhanced.EMapping).Perm
      [⟨"staging.transactions", "srcid", "core.ledgerfinal", "batchid"⟩,
       ⟨"staging.transactions", "srcid", "core.ledgerfinal", "idempotencykey"⟩] ∧
    Enhanced.sortMappings
      [⟨"staging.transactions", "srcid", "core.ledgerfinal", "idempotencykey"⟩,
       ⟨"staging.transactions", "srcid", "core.ledgerfinal", "batchid"⟩] =
      [⟨"staging.transactions", "srcid", "core.ledgerfinal", "idempotencykey"⟩,
       ⟨"staging.transactions", "srcid", "core.ledgerfinal", "batchid"⟩] ∧
    Enhanced.sortMappings
      [⟨"staging.transactions", "srcid", "core.ledgerfinal", "batchid"⟩,
       ⟨"staging.transactions", "srcid", "core.ledgerfinal", "idempotencykey"⟩] =
      [⟨"staging.transactions", "srcid", "core.ledgerfinal", "batchid"⟩,
       ⟨"staging.transactions", "srcid", "core.ledgerfinal", "idempotencykey"⟩] ∧
    ([⟨"staging.transactions", "srcid", "core.ledgerfinal", "idempotencykey"⟩,
      ⟨"staging.transactions", "srcid", "core.ledgerfinal", "batchid"⟩] :
      List Enhanced.EMapping) ≠
      [⟨"staging.transactions", "srcid", "core.ledgerfinal", "batchid"⟩,
       ⟨"staging.transactions", "srcid", "core.ledgerfinal", "idempotencykey"⟩] := by
  refine ⟨by decide, by decide, by decide, by decide⟩

/-- Claim C9 (amended): for a fixed enumeration order of the mapping
list, `generate_report` is deterministic and its output is a permutation
of the input sorted by the key (target table, source table, source
column); but since the key omits the target column, mappings tying on the
key keep their input order, so set-level determinism does not hold. -/
theorem generate_report_sorted_and_permutation :
    ∀ l : List Enhanced.EMapping,
      (Enhanced.sortMappings l).Perm l ∧
      List.Pairwise (fun a b => Enhanced.keyLt b a = false)
        (Enhanced.sortMappings l) :=
  fun l => ⟨Enhanced.sortMappings_perm l, Enhanced.sortMappings_sorted l⟩

/-- Witness for `trace_end_to_end_path_shortest`: on the diamond graph
the returned path [s, a, t] has length 3, at most one more than the
2-edge walk s→a→t. -/
theorem trace_end_to_end_path_shortest_witness :
    (["s", "a", "t"] : List String).length ≤ 2 + 1 :=
  Tracer.trace_end_to_end_path_shortest
    [("s", ["a", "b"]), ("a", ["t"]), ("b", ["t"])] "s" "t" 10
    ["s", "a", "t"] (by decide) 2
    (@Tracer.Walk.cons [("s", ["a", "b"]), ("a", ["t"]), ("b", ["t"])]
      "s" "a" "t" 1 (by decide)
      (@Tracer.Walk.cons [("s", ["a", "b"]), ("a", ["t"]), ("b", ["t"])]
        "a" "t" "t" 0 (by decide) (Tracer.Walk.nil "t")))

end LineageSpec
